import Mathlib

/-!
Verification of the pyjopa bytecode back end (shallow embedding).

Each definition below is translated from the repository's Python sources:
  - `pyjopa/types.py` (present in the repo as `java8_parser/java8_parser/types.py`;
    `src/pyjopa` imports it as `..types`): the `JType` model and descriptors.
  - `pyjopa/codegen/resolution.py`: descriptor parsing, assignability,
    method resolution and the most-specific selection.
  - `pyjopa/classfile.py`: the constant pool, the bytecode builder
    (`lookupswitch`, loads/stores, invocations) and class-file versions.
  - `pyjopa/codegen/generator.py`: version selection and the enum
    `values()` / `valueOf(String)` generators.
  - `pyjopa/codegen/statements.py`: integer/string switch compilation.
  - `pyjopa/codegen/expressions.py`: the string-concatenation slice of the
    expression compiler.

Strings are modelled as `List Char`; Python `dict`s used as caches are
modelled as association lists with first-match lookup (insertion at the
head), which has the same lookup semantics.
-/

namespace Pyjopa

/-! ## Type model (`types.py`) -/

/-- `JType` from `types.py`: `PrimitiveJType(name, descriptor, size)`,
`ClassJType(name)` and `ArrayJType(element_type, dimensions)`. -/
inductive JType : Type where
  | primitive (name : List Char) (desc : List Char) (sz : Nat)
  | classType (name : List Char)
  | arrayType (elementType : JType) (dimensions : Nat)
deriving DecidableEq, Repr

def VOID : JType := .primitive "void".toList "V".toList 1
def BOOLEAN : JType := .primitive "boolean".toList "Z".toList 1
def BYTE : JType := .primitive "byte".toList "B".toList 1
def CHAR : JType := .primitive "char".toList "C".toList 1
def SHORT : JType := .primitive "short".toList "S".toList 1
def INT : JType := .primitive "int".toList "I".toList 1
def LONG : JType := .primitive "long".toList "J".toList 2
def FLOAT : JType := .primitive "float".toList "F".toList 1
def DOUBLE : JType := .primitive "double".toList "D".toList 2

def STRINGT : JType := .classType "java/lang/String".toList

/-- `ClassJType.internal_name`: package dots are replaced by slashes. -/
def internalNameChars (n : List Char) : List Char :=
  n.map (fun c => if c = '.' then '/' else c)

/-- `JType.descriptor()`: one-letter descriptors for primitives,
`L<internal>;` for classes, one `[` per dimension for arrays. -/
def JType.descriptor : JType → List Char
  | .primitive _ d _ => d
  | .classType n => 'L' :: (internalNameChars n ++ [';'])
  | .arrayType e d => List.replicate d '[' ++ e.descriptor

/-- `JType.internal_name()` (classes: slashed name; arrays: the descriptor;
primitives: the source name). -/
def JType.internalName : JType → List Char
  | .primitive n _ _ => n
  | .classType n => internalNameChars n
  | .arrayType e d => (JType.arrayType e d).descriptor

def JType.isPrimitive : JType → Bool
  | .primitive _ _ _ => true
  | _ => false

def JType.isReference : JType → Bool
  | .primitive _ _ _ => false
  | _ => true

def JType.size : JType → Nat
  | .primitive _ _ s => s
  | _ => 1

/-! ## Descriptor parsing (`resolution.py`, `_parse_type_from_descriptor`)

The Python function takes `(desc, pos)` and only ever inspects `desc[pos:]`;
we model it on the suffix.  `desc.index(';', pos)` is modelled by
`indexOfChar`. -/

/-- Position of the first occurrence of `c` (Python `str.index` relative to
the scan start), `none` when absent. -/
def indexOfChar (c : Char) : List Char → Option Nat
  | [] => none
  | x :: xs => if x = c then some 0 else (indexOfChar c xs).map (· + 1)

/-- `_parse_type_from_descriptor`: returns the parsed `JType` and the number
of characters consumed; `none` models the raised `CompileError` /
`ValueError`. -/
def parseTypeFromDescriptor : List Char → Option (JType × Nat)
  | [] => none
  | ch :: rest =>
    if ch = 'B' then some (BYTE, 1)
    else if ch = 'C' then some (CHAR, 1)
    else if ch = 'D' then some (DOUBLE, 1)
    else if ch = 'F' then some (FLOAT, 1)
    else if ch = 'I' then some (INT, 1)
    else if ch = 'J' then some (LONG, 1)
    else if ch = 'S' then some (SHORT, 1)
    else if ch = 'Z' then some (BOOLEAN, 1)
    else if ch = 'V' then some (VOID, 1)
    else if ch = 'L' then
      match indexOfChar ';' rest with
      | none => none
      | some i => some (JType.classType (rest.take i), i + 2)
    else if ch = '[' then
      match parseTypeFromDescriptor rest with
      | none => none
      | some (t, consumed) =>
        match t with
        | .arrayType e d => some (.arrayType e (d + 1), consumed + 1)
        | _ => some (.arrayType t 1, consumed + 1)
    else none

/-- Well-formed JVM field/type descriptors: a base-type letter, an
`L<name>;` class descriptor whose name is nonempty and free of `;`, `.`
and `[`, or `[` prefixed to a well-formed descriptor. -/
inductive WfDesc : List Char → Prop where
  | base (c : Char) :
      c ∈ ['B', 'C', 'D', 'F', 'I', 'J', 'S', 'Z', 'V'] → WfDesc [c]
  | classDesc (name : List Char) :
      name ≠ [] → (∀ c ∈ name, c ≠ ';' ∧ c ≠ '.' ∧ c ≠ '[') →
      WfDesc ('L' :: (name ++ [';']))
  | arrayDesc (d : List Char) : WfDesc d → WfDesc ('[' :: d)

/-! ## Constant pool (`classfile.py`, class `ConstantPool`)

Entries are tuples `(tag, operands…)`; we model the subset of tags the
verified claims touch.  The de-duplicating `dict` cache is an association
list with insertion at the head and first-match lookup. -/

inductive CpEntry : Type where
  | utf8 (s : List Char)
  | integer (v : Int)
  | long (v : Int)
  | classRef (nameIdx : Nat)
  | stringRef (utf8Idx : Nat)
  | nameAndType (nameIdx descIdx : Nat)
  | fieldref (classIdx natIdx : Nat)
  | methodref (classIdx natIdx : Nat)
  | interfaceMethodref (classIdx natIdx : Nat)
deriving DecidableEq, Repr

/-- `LONG` and `DOUBLE` entries reserve a second (hole) slot. -/
def CpEntry.isTwoSlot : CpEntry → Bool
  | .long _ => true
  | _ => false

structure ConstantPool where
  entries : List (Option CpEntry)
  cache : List (CpEntry × Nat)
deriving DecidableEq, Repr

/-- `ConstantPool.__init__`: `self._entries = [None]` (1-indexed), empty cache. -/
def emptyPool : ConstantPool := ⟨[none], []⟩

def cacheLookup (e : CpEntry) : List (CpEntry × Nat) → Option Nat
  | [] => none
  | kv :: rest => if kv.1 = e then some kv.2 else cacheLookup e rest

/-- `ConstantPool._add`: return the cached index when the entry is known,
otherwise append it (plus a hole slot for long/double) and cache the new
index.  Note: the source performs no overflow check of any kind. -/
def cpAdd (p : ConstantPool) (e : CpEntry) : ConstantPool × Nat :=
  match cacheLookup e p.cache with
  | some i => (p, i)
  | none =>
    let idx := p.entries.length
    (⟨p.entries ++ (some e :: (if e.isTwoSlot then [none] else [])),
      (e, idx) :: p.cache⟩, idx)

def addUtf8 (p : ConstantPool) (s : List Char) : ConstantPool × Nat :=
  cpAdd p (.utf8 s)

def addInteger (p : ConstantPool) (v : Int) : ConstantPool × Nat :=
  cpAdd p (.integer v)

def addLong (p : ConstantPool) (v : Int) : ConstantPool × Nat :=
  cpAdd p (.long v)

def addClass (p : ConstantPool) (n : List Char) : ConstantPool × Nat :=
  let r := addUtf8 p n
  cpAdd r.1 (.classRef r.2)

def addString (p : ConstantPool) (s : List Char) : ConstantPool × Nat :=
  let r := addUtf8 p s
  cpAdd r.1 (.stringRef r.2)

def addNameAndType (p : ConstantPool) (n d : List Char) : ConstantPool × Nat :=
  let rn := addUtf8 p n
  let rd := addUtf8 rn.1 d
  cpAdd rd.1 (.nameAndType rn.2 rd.2)

def addFieldref (p : ConstantPool) (c f d : List Char) : ConstantPool × Nat :=
  let rc := addClass p c
  let rn := addNameAndType rc.1 f d
  cpAdd rn.1 (.fieldref rc.2 rn.2)

def addMethodref (p : ConstantPool) (c m d : List Char) : ConstantPool × Nat :=
  let rc := addClass p c
  let rn := addNameAndType rc.1 m d
  cpAdd rn.1 (.methodref rc.2 rn.2)

def addInterfaceMethodref (p : ConstantPool) (c m d : List Char) :
    ConstantPool × Nat :=
  let rc := addClass p c
  let rn := addNameAndType rc.1 m d
  cpAdd rn.1 (.interfaceMethodref rc.2 rn.2)

/-- Number of occurrences of entry `e` in the entry list. -/
def countOcc (e : CpEntry) : List (Option CpEntry) → Nat
  | [] => 0
  | x :: xs => (if x = some e then 1 else 0) + countOcc e xs

/-- Consistency of the cache with the entry list: every cached entry is
stored exactly once at its cached index, uncached entries do not occur.
Holds for the empty pool and is preserved by every add operation. -/
def CpWf (p : ConstantPool) : Prop :=
  (∀ e i, cacheLookup e p.cache = some i →
    p.entries[i]? = some (some e) ∧ countOcc e p.entries = 1) ∧
  (∀ e, cacheLookup e p.cache = none → countOcc e p.entries = 0)

/-- `n` successive `add_integer` calls with the distinct values `0..n-1`
(drives the pool past any size; used for the overflow claim). -/
def addIntegerRange (n : Nat) : ConstantPool :=
  (List.range n).foldl (fun p k => (addInteger p (Int.ofNat k)).1) emptyPool

/-! ## Bytecode builder (`classfile.py`, class `BytecodeBuilder`)

The byte buffer is a list of byte values; `struct.pack(">H", v)` /
`struct.pack(">i", v)` become `u2Bytes` / `int4Bytes`.  Forward references
are the `(label, offset, size)` triples (`FRef.branch`, size 2) and the
`(label, offset, 4, instr_start)` quadruples (`FRef.wide`) of the source. -/

def u2Bytes (v : Nat) : List Nat := [v / 256 % 256, v % 256]

def int4Bytes (v : Int) : List Nat :=
  let n := (v % (4294967296 : Int)).toNat
  [n / 16777216 % 256, n / 65536 % 256, n / 256 % 256, n % 256]

inductive FRef : Type where
  | branch (label : List Char) (offset : Nat)
  | wide (label : List Char) (offset : Nat) (instrStart : Nat)
deriving DecidableEq, Repr

structure Builder where
  cp : ConstantPool
  code : List Nat
  maxStack : Int
  maxLocals : Nat
  curStack : Int
  labels : List (List Char × Nat)
  fwdRefs : List FRef
deriving DecidableEq, Repr

/-- `BytecodeBuilder.__init__(cp)`. -/
def newBuilder (cp : ConstantPool) : Builder := ⟨cp, [], 0, 0, 0, [], []⟩

def Builder.pushN (b : Builder) (count : Int) : Builder :=
  let cur := b.curStack + count
  { b with curStack := cur, maxStack := max b.maxStack cur }

def Builder.popN (b : Builder) (count : Int) : Builder :=
  { b with curStack := b.curStack - count }

def Builder.emit (b : Builder) (byte : Nat) : Builder :=
  { b with code := b.code ++ [byte] }

def Builder.setLabel (b : Builder) (name : List Char) : Builder :=
  { b with labels := (name, b.code.length) :: b.labels }

def Builder.iconst (b : Builder) (value : Int) : Builder :=
  let b1 :=
    if value = -1 then b.emit 0x02
    else if 0 ≤ value ∧ value ≤ 5 then b.emit (3 + value.toNat)
    else if -128 ≤ value ∧ value ≤ 127 then
      (b.emit 0x10).emit ((value % 256).toNat)
    else if -32768 ≤ value ∧ value ≤ 32767 then
      { b with code := b.code ++ [0x11] ++ u2Bytes ((value % 65536).toNat) }
    else
      let r := addInteger b.cp value
      let b := { b with cp := r.1 }
      if r.2 ≤ 255 then (b.emit 0x12).emit r.2
      else { b with code := b.code ++ [0x13] ++ u2Bytes r.2 }
  b1.pushN 1

def Builder.ldcString (b : Builder) (value : List Char) : Builder :=
  let r := addString b.cp value
  let b := { b with cp := r.1 }
  let b :=
    if r.2 ≤ 255 then (b.emit 0x12).emit r.2
    else { b with code := b.code ++ [0x13] ++ u2Bytes r.2 }
  b.pushN 1

def Builder.ldcClass (b : Builder) (className : List Char) : Builder :=
  let r := addClass b.cp className
  let b := { b with cp := r.1 }
  let b :=
    if r.2 ≤ 255 then (b.emit 0x12).emit r.2
    else { b with code := b.code ++ [0x13] ++ u2Bytes r.2 }
  b.pushN 1

def Builder.iload (b : Builder) (slot : Nat) : Builder :=
  (if slot ≤ 3 then b.emit (0x1A + slot) else (b.emit 0x15).emit slot).pushN 1

def Builder.lload (b : Builder) (slot : Nat) : Builder :=
  (if slot ≤ 3 then b.emit (0x1E + slot) else (b.emit 0x16).emit slot).pushN 2

def Builder.fload (b : Builder) (slot : Nat) : Builder :=
  (if slot ≤ 3 then b.emit (0x22 + slot) else (b.emit 0x17).emit slot).pushN 1

def Builder.dload (b : Builder) (slot : Nat) : Builder :=
  (if slot ≤ 3 then b.emit (0x26 + slot) else (b.emit 0x18).emit slot).pushN 2

def Builder.aload (b : Builder) (slot : Nat) : Builder :=
  (if slot ≤ 3 then b.emit (0x2A + slot) else (b.emit 0x19).emit slot).pushN 1

def Builder.istore (b : Builder) (slot : Nat) : Builder :=
  (if slot ≤ 3 then b.emit (0x3B + slot) else (b.emit 0x36).emit slot).popN 1

def Builder.lstore (b : Builder) (slot : Nat) : Builder :=
  (if slot ≤ 3 then b.emit (0x3F + slot) else (b.emit 0x37).emit slot).popN 2

def Builder.fstore (b : Builder) (slot : Nat) : Builder :=
  (if slot ≤ 3 then b.emit (0x43 + slot) else (b.emit 0x38).emit slot).popN 1

def Builder.dstore (b : Builder) (slot : Nat) : Builder :=
  (if slot ≤ 3 then b.emit (0x47 + slot) else (b.emit 0x39).emit slot).popN 2

def Builder.astore (b : Builder) (slot : Nat) : Builder :=
  (if slot ≤ 3 then b.emit (0x4B + slot) else (b.emit 0x3A).emit slot).popN 1

def Builder.iadd (b : Builder) : Builder := (b.emit 0x60).popN 1

def Builder.ladd (b : Builder) : Builder := (b.emit 0x61).popN 2

def Builder.fadd (b : Builder) : Builder := (b.emit 0x62).popN 1

def Builder.dadd (b : Builder) : Builder := (b.emit 0x63).popN 2

def Builder.dup (b : Builder) : Builder := (b.emit 0x59).pushN 1

def Builder.areturn (b : Builder) : Builder := (b.emit 0xB0).popN 1

def Builder.goto (b : Builder) (label : List Char) : Builder :=
  let b := b.emit 0xA7
  let b := { b with fwdRefs := b.fwdRefs ++ [FRef.branch label b.code.length] }
  { b with code := b.code ++ [0, 0] }

def Builder.ifne (b : Builder) (label : List Char) : Builder :=
  let b := b.emit 0x9A
  let b := { b with fwdRefs := b.fwdRefs ++ [FRef.branch label b.code.length] }
  ({ b with code := b.code ++ [0, 0] }).popN 1

def Builder.newInstance (b : Builder) (className : List Char) : Builder :=
  let r := addClass b.cp className
  ({ b with cp := r.1, code := b.code ++ [0xBB] ++ u2Bytes r.2 }).pushN 1

def Builder.checkcast (b : Builder) (className : List Char) : Builder :=
  let r := addClass b.cp className
  { b with cp := r.1, code := b.code ++ [0xC0] ++ u2Bytes r.2 }

def Builder.getstatic (b : Builder) (className fieldName descriptor : List Char)
    (sz : Int) : Builder :=
  let r := addFieldref b.cp className fieldName descriptor
  ({ b with cp := r.1, code := b.code ++ [0xB2] ++ u2Bytes r.2 }).pushN sz

def Builder.invokevirtual (b : Builder) (className methodName descriptor : List Char)
    (argSize retSize : Int) : Builder :=
  let r := addMethodref b.cp className methodName descriptor
  (({ b with cp := r.1, code := b.code ++ [0xB6] ++ u2Bytes r.2 }).popN
    (1 + argSize)).pushN retSize

def Builder.invokespecial (b : Builder) (className methodName descriptor : List Char)
    (argSize retSize : Int) : Builder :=
  let r := addMethodref b.cp className methodName descriptor
  (({ b with cp := r.1, code := b.code ++ [0xB7] ++ u2Bytes r.2 }).popN
    (1 + argSize)).pushN retSize

def Builder.invokestatic (b : Builder) (className methodName descriptor : List Char)
    (argSize retSize : Int) : Builder :=
  let r := addMethodref b.cp className methodName descriptor
  (({ b with cp := r.1, code := b.code ++ [0xB8] ++ u2Bytes r.2 }).popN
    argSize).pushN retSize

/-- Stable insertion used to model Python's stable `sorted(cases,
key=lambda x: x[0])`: an element is placed before the first strictly
larger key, so equal keys keep their original order. -/
def insertPair (x : Int × List Char) : List (Int × List Char) → List (Int × List Char)
  | [] => [x]
  | y :: ys => if x.1 ≤ y.1 then x :: y :: ys else y :: insertPair x ys

def sortPairs : List (Int × List Char) → List (Int × List Char)
  | [] => []
  | x :: xs => insertPair x (sortPairs xs)

/-- `BytecodeBuilder.lookupswitch(default_label, cases)`. -/
def Builder.lookupswitch (b : Builder) (defaultLabel : List Char)
    (cases : List (Int × List Char)) : Builder :=
  let b := b.emit 0xAB
  let base := b.code.length
  let padding := (4 - base % 4) % 4
  let b := { b with code := b.code ++ List.replicate padding 0 }
  let b := { b with fwdRefs := b.fwdRefs ++ [FRef.wide defaultLabel b.code.length (base - 1)] }
  let b := { b with code := b.code ++ int4Bytes 0 }
  let b := { b with code := b.code ++ int4Bytes (Int.ofNat cases.length) }
  let b := (sortPairs cases).foldl (fun b mc =>
      let b := { b with code := b.code ++ int4Bytes mc.1 }
      let b := { b with fwdRefs := b.fwdRefs ++ [FRef.wide mc.2 b.code.length (base - 1)] }
      { b with code := b.code ++ int4Bytes 0 }) b
  b.popN 1

/-- `_compile_switch`: `default_label = end_label`, overwritten by the case
label of each case that carries a `None` (default) label.  A case is a
pair (list of labels, where `none` is `default`; its body label). -/
def computeDefaultLabel (caseItems : List (List (Option Int) × List Char))
    (endLabel : List Char) : List Char :=
  caseItems.foldl
    (fun acc item =>
      item.1.foldl (fun a l => match l with | none => item.2 | some _ => a) acc)
    endLabel

instance {eps alpha : Type} [DecidableEq eps] [DecidableEq alpha] :
    DecidableEq (Except eps alpha) := fun a b =>
  match a, b with
  | .error e, .error f =>
    if h : e = f then .isTrue (by rw [h])
    else .isFalse (by intro hc; cases hc; exact h rfl)
  | .ok x, .ok y =>
    if h : x = y then .isTrue (by rw [h])
    else .isFalse (by intro hc; cases hc; exact h rfl)
  | .error _, .ok _ => .isFalse (by intro hc; cases hc)
  | .ok _, .error _ => .isFalse (by intro hc; cases hc)

/-! ## Symbol resolution (`resolution.py`) -/

/-- `ResolvedMethod` (`codegen/types.py`); `isVarargs` defaults to `False`
at every construction site that omits it. -/
structure ResolvedMethod where
  owner : List Char
  name : List Char
  descriptor : List Char
  isStatic : Bool
  isInterface : Bool
  returnType : JType
  paramTypes : List JType
  isVarargs : Bool
deriving DecidableEq, Repr

/-- `LocalMethodInfo` (`codegen/types.py`). -/
structure LocalMethodInfo where
  name : List Char
  descriptor : List Char
  isStatic : Bool
  returnType : JType
  paramTypes : List JType
  isVarargs : Bool
deriving DecidableEq, Repr

/-- A method entry of the class-path reader (`classreader.py`): name,
descriptor and access flags are all that resolution consumes. -/
structure RMethod where
  name : List Char
  descriptor : List Char
  accessFlags : Nat
deriving DecidableEq, Repr

/-- Class metadata returned by the class-path reader. -/
structure ReadClassInfo where
  name : List Char
  accessFlags : Nat
  superClass : Option (List Char)
  interfaces : List (List Char)
  methods : List RMethod
deriving DecidableEq, Repr

/-- The generator state that resolution reads: current class name, its
super-class name and the class path (the lazily filled `_class_cache` is
transparent to lookup results), plus the local-method table. -/
structure GenCtx where
  className : List Char
  superClassName : List Char
  classpath : List (List Char × ReadClassInfo)
  localMethods : List (List Char × List LocalMethodInfo)
deriving Repr

def lookupAssoc {α : Type} (key : List Char) : List (List Char × α) → Option α
  | [] => none
  | kv :: rest => if kv.1 = key then some kv.2 else lookupAssoc key rest

/-- `_lookup_class` (cache plus `classpath.find_class`). -/
def lookupClass (ctx : GenCtx) (n : List Char) : Option ReadClassInfo :=
  lookupAssoc n ctx.classpath

/-- `_is_subclass`.  Python terminates through the `visited` set; the fuel
argument only bounds the loop and is always instantiated above the number
of distinct reachable class names. -/
def isSubclass (ctx : GenCtx) : Nat → List (List Char) → List Char → List Char → Bool
  | 0, _, _, _ => false
  | fuel + 1, visited, current, target =>
    if current = [] ∨ current ∈ visited then false
    else if current = target then true
    else
      let nextSuper : List Char :=
        if current = ctx.className ∧ ctx.superClassName ≠ [] then ctx.superClassName
        else
          match lookupClass ctx current with
          | some ci => ci.superClass.getD []
          | none => []
      if nextSuper = [] then false
      else if nextSuper = target then true
      else isSubclass ctx fuel (current :: visited) nextSuper target

def objectNameChars : List Char := "java/lang/Object".toList

def isObjectType : JType → Bool
  | .classType n => decide (internalNameChars n = objectNameChars)
  | _ => false

/-- The `widening_order = [BYTE, SHORT, CHAR, INT, LONG]` list of
`_type_assignable` (also the member set `integer_types`). -/
def integerWideningOrder : List JType := [BYTE, SHORT, CHAR, INT, LONG]

/-- First index of `t` (Python `list.index`; `none` models the `-1` / not
present case). -/
def listIdx (t : JType) : List JType → Option Nat
  | [] => none
  | x :: xs => if x = t then some 0 else (listIdx t xs).map (· + 1)

/-- `_type_assignable`. -/
def typeAssignable (ctx : GenCtx) (fromType toType : JType) : Bool :=
  if fromType = toType then true
  else if (decide (fromType ∈ integerWideningOrder) &&
        decide (toType ∈ integerWideningOrder)) &&
      ((decide (fromType = BYTE ∨ fromType = SHORT ∨ fromType = CHAR) &&
          decide (toType = INT)) ||
        (match listIdx fromType integerWideningOrder,
            listIdx toType integerWideningOrder with
         | some i, some j => decide (i ≤ j)
         | _, _ => false)) then true
  else if fromType = FLOAT ∧ toType = DOUBLE then true
  else if (fromType = BYTE ∨ fromType = SHORT ∨ fromType = CHAR ∨ fromType = INT) ∧
      (toType = FLOAT ∨ toType = DOUBLE) then true
  else if fromType = LONG ∧ (toType = FLOAT ∨ toType = DOUBLE) then true
  else if isObjectType toType &&
      (match fromType with
       | .classType _ => true
       | .arrayType _ _ => true
       | _ => false) then true
  else
    match fromType, toType with
    | .classType nf, .classType nt =>
      if internalNameChars nf = internalNameChars nt then true
      else isSubclass ctx (ctx.classpath.length + 3) []
        (internalNameChars nf) (internalNameChars nt)
    | _, _ => false

/-- `_args_compatible` (Python `zip` truncates to the shorter list). -/
def argsCompatible (ctx : GenCtx) (argTypes paramTypes : List JType) : Bool :=
  (argTypes.zip paramTypes).all (fun pr => typeAssignable ctx pr.1 pr.2)

/-- Parameter-list part of `_parse_method_descriptor` (`while descriptor[i]
!= ')'`); fuel is the remaining length, each parsed type consumes at least
one character. -/
def parseParamsDesc : Nat → List Char → Option (List JType × List Char)
  | 0, _ => none
  | _, [] => none
  | fuel + 1, ch :: rest =>
    if ch = ')' then some ([], rest)
    else
      match parseTypeFromDescriptor (ch :: rest) with
      | none => none
      | some (t, consumed) =>
        match parseParamsDesc fuel ((ch :: rest).drop consumed) with
        | none => none
        | some (ts, rem) => some (t :: ts, rem)

/-- `_parse_method_descriptor` (the leading `(` is skipped unchecked). -/
def parseMethodDescriptor (d : List Char) : Option (JType × List JType) :=
  match d with
  | [] => none
  | _ :: rest =>
    match parseParamsDesc rest.length rest with
    | none => none
    | some (params, rem) =>
      match parseTypeFromDescriptor rem with
      | none => none
      | some (rt, _) => some (rt, params)

/-- The full widening list of `_method_more_specific`. -/
def wideningOrderFull : List JType :=
  [BYTE, SHORT, CHAR, INT, LONG, FLOAT, DOUBLE]

/-- One position of the `_method_more_specific` loop: `continue` on equal
parameters, otherwise primitive-or-non-Object-class versus `Object`, or a
strictly narrower primitive.  Note that an array parameter versus `Object`
does NOT fire (it is neither a `PrimitiveJType` nor a `ClassJType`). -/
def paramMoreSpecificStep (p1 p2 : JType) : Bool :=
  if p1 = p2 then false
  else
    (isObjectType p2 &&
      (p1.isPrimitive ||
        (match p1 with
         | .classType _ => !(isObjectType p1)
         | _ => false)))
    || (p1.isPrimitive && p2.isPrimitive &&
        (match listIdx p1 wideningOrderFull, listIdx p2 wideningOrderFull with
         | some i, some j => decide (i < j)
         | _, _ => false))

/-- `_method_more_specific(m1, m2, arg_types)`: the loop returns `True` as
soon as SOME zipped position fires (the argument types are only used to
bound the zip). -/
def methodMoreSpecific (m1 m2 : ResolvedMethod) (argTypes : List JType) : Bool :=
  (m1.paramTypes.zip (m2.paramTypes.zip argTypes)).any
    (fun pr => paramMoreSpecificStep pr.1 pr.2.1)

/-- The fold of `_most_specific_method`: start from the first candidate and
replace it whenever a later candidate is `_method_more_specific`. -/
def mostSpecificFold (first : ResolvedMethod) (rest : List ResolvedMethod)
    (argTypes : List JType) : ResolvedMethod :=
  rest.foldl
    (fun best cand => if methodMoreSpecific cand best argTypes then cand else best)
    first

/-- `_most_specific_method` (`none` models the empty-candidate case, which
the source never reaches). -/
def mostSpecificMethod (candidates : List ResolvedMethod) (argTypes : List JType) :
    Option ResolvedMethod :=
  match candidates with
  | [] => none
  | c :: rest => some (mostSpecificFold c rest argTypes)

/-- The local-method loop of `_find_method`: an overload is taken on
parameter-COUNT equality alone ("exact match"), else through the varargs
check; otherwise the loop continues. -/
def localMatch (ctx : GenCtx) (methodName : List Char) (argTypes : List JType) :
    List LocalMethodInfo → Option ResolvedMethod
  | [] => none
  | lm :: rest =>
    if lm.paramTypes.length = argTypes.length then
      some ⟨ctx.className, methodName, lm.descriptor, lm.isStatic, false,
        lm.returnType, lm.paramTypes, lm.isVarargs⟩
    else if lm.isVarargs ∧ lm.paramTypes ≠ [] then
      let numRegular := lm.paramTypes.length - 1
      if argTypes.length ≥ numRegular then
        if ((argTypes.take numRegular).zip (lm.paramTypes.take numRegular)).all
            (fun pr => typeAssignable ctx pr.1 pr.2) then
          match lm.paramTypes.getLast? with
          | some (.arrayType e _) =>
            if (argTypes.drop numRegular).all (fun a => typeAssignable ctx a e) then
              some ⟨ctx.className, methodName, lm.descriptor, lm.isStatic, false,
                lm.returnType, lm.paramTypes, true⟩
            else localMatch ctx methodName argTypes rest
          | _ => localMatch ctx methodName argTypes rest
        else localMatch ctx methodName argTypes rest
      else localMatch ctx methodName argTypes rest
    else localMatch ctx methodName argTypes rest

/-- The per-class method loop of `_find_method`: keep the methods with the
queried name whose descriptors parse, whose parameter count equals the
argument count and whose parameters are compatible with the arguments, in
declaration order.  `Except.error` models a raised `CompileError` from
descriptor parsing. -/
def collectFromMethods (ctx : GenCtx) (methodName : List Char)
    (argTypes : List JType) (ownerName : List Char) (isInterface : Bool) :
    List RMethod → Except Unit (List ResolvedMethod)
  | [] => .ok []
  | m :: rest =>
    if m.name ≠ methodName then
      collectFromMethods ctx methodName argTypes ownerName isInterface rest
    else
      match parseMethodDescriptor m.descriptor with
      | none => .error ()
      | some (rt, params) =>
        if params.length ≠ argTypes.length then
          collectFromMethods ctx methodName argTypes ownerName isInterface rest
        else if argsCompatible ctx argTypes params then
          match collectFromMethods ctx methodName argTypes ownerName isInterface rest with
          | .error _ => .error ()
          | .ok more => .ok (⟨ownerName, methodName, m.descriptor,
              decide (m.accessFlags &&& 8 ≠ 0), isInterface, rt, params, false⟩ :: more)
        else collectFromMethods ctx methodName argTypes ownerName isInterface rest

/-- The candidate-collection walk of `_find_method` over a class and its
super-class chain.  The fuel bounds the walk (the source has no visited
set here, so a cyclic super chain would diverge; that is modelled as
`Except.error` on exhaustion). -/
def collectCandidates (ctx : GenCtx) (methodName : List Char)
    (argTypes : List JType) (isInterface : Bool) :
    Nat → Option ReadClassInfo → Except Unit (List ResolvedMethod)
  | _, none => .ok []
  | 0, some _ => .error ()
  | fuel + 1, some cur =>
    match collectFromMethods ctx methodName argTypes cur.name isInterface cur.methods with
    | .error _ => .error ()
    | .ok cands =>
      match cur.superClass with
      | some sup =>
        match collectCandidates ctx methodName argTypes isInterface fuel
            (lookupClass ctx sup) with
        | .error _ => .error ()
        | .ok more => .ok (cands ++ more)
      | none => .ok cands

/-- The interface loop at the end of `_find_method`: apply the recursive
search to each interface name in order, the first non-`None` result wins,
exceptions propagate. -/
def findFirstIn (f : List Char → Except Unit (Option ResolvedMethod)) :
    List (List Char) → Except Unit (Option ResolvedMethod)
  | [] => .ok none
  | iface :: rest =>
    match f iface with
    | .error _ => .error ()
    | .ok (some r) => .ok (some r)
    | .ok none => findFirstIn f rest

/-- `_find_method(class_name, method_name, arg_types)`.  The fuel bounds
the recursion depth (super-of-current-class and interface chains); every
theorem quantifies over it. -/
def findMethod (ctx : GenCtx) : Nat → List Char → List Char → List JType →
    Except Unit (Option ResolvedMethod)
  | 0, _, _, _ => .error ()
  | fuel + 1, className, methodName, argTypes =>
    let localResult : Option ResolvedMethod :=
      if className = ctx.className then
        match lookupAssoc methodName ctx.localMethods with
        | some overloads => localMatch ctx methodName argTypes overloads
        | none => none
      else none
    match localResult with
    | some r => .ok (some r)
    | none =>
      let inheritedStep : Except Unit (Option ResolvedMethod) :=
        if className = ctx.className ∧ ctx.superClassName ≠ [] ∧
            ctx.superClassName ≠ ctx.className then
          findMethod ctx fuel ctx.superClassName methodName argTypes
        else .ok none
      match inheritedStep with
      | .error _ => .error ()
      | .ok (some r) => .ok (some r)
      | .ok none =>
        match lookupClass ctx className with
        | none => .ok none
        | some cls =>
          let isInterface := decide (cls.accessFlags &&& 512 ≠ 0)
          match collectCandidates ctx methodName argTypes isInterface
              (ctx.classpath.length + 1) (some cls) with
          | .error _ => .error ()
          | .ok candidates =>
            match mostSpecificMethod candidates argTypes with
            | some r => .ok (some r)
            | none =>
              findFirstIn
                (fun iface => findMethod ctx fuel iface methodName argTypes)
                cls.interfaces

/-! ### Spec-side rules (modelled from the claims' words, for comparison) -/

/-- Claim C1's pairwise narrowing at one position: a strictly narrower
primitive in the widening order, or a non-Object type versus `Object`. -/
def specNarrowerAt (p1 p2 : JType) : Bool :=
  (match listIdx p1 wideningOrderFull, listIdx p2 wideningOrderFull with
   | some i, some j => decide (i < j)
   | _, _ => false)
  || (!(isObjectType p1) && isObjectType p2)

/-- Claim C1's "more specific" rule: narrower at EVERY parameter position. -/
def specMoreSpecific (m1 m2 : ResolvedMethod) : Bool :=
  decide (m1.paramTypes.length = m2.paramTypes.length) &&
  (m1.paramTypes.zip m2.paramTypes).all (fun pr => specNarrowerAt pr.1 pr.2)

/-- Claim C2's "standard widening table":
byte→short→int→long→float→double and char→int→long→float→double (plus
identity).  Note: no byte→char and no short→char. -/
def specWidening (p1 p2 : JType) : Bool :=
  if p1 = p2 then true
  else if p1 = BYTE then decide (p2 ∈ [SHORT, INT, LONG, FLOAT, DOUBLE])
  else if p1 = SHORT then decide (p2 ∈ [INT, LONG, FLOAT, DOUBLE])
  else if p1 = CHAR then decide (p2 ∈ [INT, LONG, FLOAT, DOUBLE])
  else if p1 = INT then decide (p2 ∈ [LONG, FLOAT, DOUBLE])
  else if p1 = LONG then decide (p2 ∈ [FLOAT, DOUBLE])
  else if p1 = FLOAT then decide (p2 = DOUBLE)
  else false

/-- The primitive widening the CODE actually implements (the amended table
of claim C2): positions in `byte ≤ short ≤ char ≤ int ≤ long`, the
integer-to-floating conversions, and float→double. -/
def codeWideningTable (p1 p2 : JType) : Bool :=
  if p1 = p2 then true
  else
    (match listIdx p1 integerWideningOrder, listIdx p2 integerWideningOrder with
     | some i, some j => decide (i ≤ j)
     | _, _ => false)
    || (decide (p1 ∈ integerWideningOrder) && decide (p2 ∈ [FLOAT, DOUBLE]))
    || (decide (p1 = FLOAT) && decide (p2 = DOUBLE))

/-! ### Concrete resolution scenarios used by the claims -/

/-- The nine primitive type values. -/
def allPrimitives : List JType :=
  [VOID, BOOLEAN, BYTE, CHAR, SHORT, INT, LONG, FLOAT, DOUBLE]

/-- The `(int)`, `(long)` and `(Object)` single-parameter candidates of the
overload-specificity scenario. -/
def candInt : ResolvedMethod :=
  ⟨"java/io/PrintStream".toList, "println".toList, "(I)V".toList,
    false, false, VOID, [INT], false⟩

def candLong : ResolvedMethod :=
  ⟨"java/io/PrintStream".toList, "println".toList, "(J)V".toList,
    false, false, VOID, [LONG], false⟩

def candObject : ResolvedMethod :=
  ⟨"java/io/PrintStream".toList, "println".toList, "(Ljava/lang/Object;)V".toList,
    false, false, VOID, [JType.classType "java/lang/Object".toList], false⟩

/-- A class-path class `C` with overloads `m(short,short)`, `m(byte,long)`
and `m(int,int)`, in that declaration order. -/
def overloadClassC : ReadClassInfo :=
  ⟨"C".toList, 33, some "java/lang/Object".toList, [],
    [⟨"m".toList, "(SS)V".toList, 9⟩, ⟨"m".toList, "(BJ)V".toList, 9⟩,
     ⟨"m".toList, "(II)V".toList, 9⟩]⟩

def overloadCtx : GenCtx :=
  ⟨"Main".toList, "java/lang/Object".toList, [("C".toList, overloadClassC)], []⟩

/-- A current-class local method `m(String)` (for the local-table branch of
`_find_method`). -/
def localStringMethod : LocalMethodInfo :=
  ⟨"m".toList, "(Ljava/lang/String;)V".toList, false, VOID, [STRINGT], false⟩

def localCtx : GenCtx :=
  ⟨"A".toList, "java/lang/Object".toList, [], [("m".toList, [localStringMethod])]⟩

/-- A class-path class `D` with a single method `m(char)`. -/
def charMethodClass : ReadClassInfo :=
  ⟨"D".toList, 33, some "java/lang/Object".toList, [],
    [⟨"m".toList, "(C)V".toList, 9⟩]⟩

def charCtx : GenCtx :=
  ⟨"Main".toList, "java/lang/Object".toList, [("D".toList, charMethodClass)], []⟩

/-! ## Class-file versions (`classfile.py` / `generator.py`) -/

def JAVA6VERSION : Nat × Nat := (50, 0)
def JAVA8VERSION : Nat × Nat := (52, 0)

/-- Interface-member slice of the AST: only "is it a method declaration
and does it have a body" feeds version selection. -/
inductive IfaceMember : Type where
  | methodDecl (hasBody : Bool)
  | fieldDecl
  | otherMember
deriving DecidableEq, Repr

/-- `compile_interface`: `needs_java8 = any(isinstance(member,
MethodDeclaration) and member.body is not None for member in iface.body)`. -/
def interfaceNeedsJava8 (body : List IfaceMember) : Bool :=
  body.any (fun m =>
    match m with
    | .methodDecl hasBody => hasBody
    | _ => false)

/-- The version `compile_interface` passes to `ClassFile`. -/
def compileInterfaceVersion (body : List IfaceMember) : Nat × Nat :=
  if interfaceNeedsJava8 body then JAVA8VERSION else JAVA6VERSION

/-- `ClassFile.__init__`'s default version, used by `compile_class` and
`compile_enum` (they never pass one). -/
def classFileDefaultVersion : Nat × Nat := JAVA6VERSION

/-- The first eight bytes `ClassFile.to_bytes` emits: the magic
`0xCAFEBABE`, then minor, then major, all big-endian. -/
def classFileHeaderBytes (version : Nat × Nat) : List Nat :=
  [0xCA, 0xFE, 0xBA, 0xBE] ++ u2Bytes version.2 ++ u2Bytes version.1

/-! ## Method context (`codegen/types.py`, `MethodContext`) and the
statement slice needed for the switch claims -/

/-- `MethodContext`: local table (a dict: cons plus first-match lookup),
next free slot, and the switch break label.  `add_local` also raises the
builder's `max_locals` high-watermark. -/
structure MCtx where
  locals : List (List Char × JType × Nat)
  nextSlot : Nat
  switchBreakLabel : Option (List Char)
deriving DecidableEq, Repr

def MCtx.addLocal (ctx : MCtx) (b : Builder) (name : List Char) (t : JType) :
    MCtx × Builder × Nat :=
  let slot := ctx.nextSlot
  let nextSlot := slot + t.size
  (⟨(name, t, slot) :: ctx.locals, nextSlot, ctx.switchBreakLabel⟩,
   { b with maxLocals := max b.maxLocals nextSlot }, slot)

/-- `load_local` (`codegen/boxing.py`): choose the load opcode by type. -/
def loadLocal (b : Builder) (t : JType) (slot : Nat) : Builder :=
  if t = INT ∨ t = BOOLEAN ∨ t = BYTE ∨ t = CHAR ∨ t = SHORT then b.iload slot
  else if t = LONG then b.lload slot
  else if t = FLOAT then b.fload slot
  else if t = DOUBLE then b.dload slot
  else if t.isReference then b.aload slot
  else b

/-- `store_local` (`codegen/boxing.py`). -/
def storeLocal (b : Builder) (t : JType) (slot : Nat) : Builder :=
  if t = INT ∨ t = BOOLEAN ∨ t = BYTE ∨ t = CHAR ∨ t = SHORT then b.istore slot
  else if t = LONG then b.lstore slot
  else if t = FLOAT then b.fstore slot
  else if t = DOUBLE then b.dstore slot
  else if t.isReference then b.astore slot
  else b

def natChars (n : Nat) : List Char := (toString n).toList

/-- `CodeGenerator.new_label(prefix)`: bump the counter, return
`f"{prefix}{counter}"`. -/
def newLabel (counter : Nat) (pre : List Char) : Nat × List Char :=
  (counter + 1, pre ++ natChars (counter + 1))

/-- Statement slice for switch bodies: the `EmptyStatement` (pass) and the
unlabeled `BreakStatement` (`goto ctx.get_break_label(None)`, i.e. the
switch break label when one is set) paths of `compile_statement`. -/
inductive StmtFrag : Type where
  | emptyStmt
  | breakStmt
deriving DecidableEq, Repr

def compileStmtFrag (ctx : MCtx) (b : Builder) : StmtFrag → Builder
  | .emptyStmt => b
  | .breakStmt =>
    match ctx.switchBreakLabel with
    | some l => b.goto l
    | none => b

/-- A `case` of a string switch: its labels (a `none` marks `default:`,
strings carry the already-unescaped literal) and its body statements. -/
structure SwitchCaseFrag where
  labels : List (Option (List Char))
  stmts : List StmtFrag
deriving DecidableEq, Repr

/-- `_compile_string_switch(stmt, ctx, end_label)`.  `idVal` is the
run-dependent Python `id(stmt)` interpolated into the synthetic temp-local
name `f"$switch_temp{id(stmt)}"`; it is an explicit parameter so that the
determinism claim can be stated as noninterference. -/
def compileStringSwitch (counter : Nat) (ctx : MCtx) (b : Builder)
    (idVal : Nat) (cases : List SwitchCaseFrag) (endLabel : List Char) :
    Nat × MCtx × Builder :=
  let tempName := "$switch_temp".toList ++ natChars idVal
  let r1 := ctx.addLocal b tempName STRINGT
  let ctx1 := r1.1
  let tempSlot := r1.2.2
  let b := storeLocal r1.2.1 STRINGT tempSlot
  let oldBreak := ctx1.switchBreakLabel
  let ctx2 := { ctx1 with switchBreakLabel := some endLabel }
  let rl := (List.range cases.length).foldl
      (fun (acc : Nat × List (List Char)) i =>
        let r := newLabel acc.1 ("case".toList ++ natChars i ++ "_body".toList)
        (r.1, acc.2 ++ [r.2])) (counter, [])
  let counter := rl.1
  let bodyLabels := rl.2
  let defaultIdx := cases.findIdx? (fun c => c.labels.any (fun l => l.isNone))
  let b := (cases.zip bodyLabels).foldl
      (fun b pr =>
        pr.1.labels.foldl (fun b lab =>
          match lab with
          | some s =>
            let b := loadLocal b STRINGT tempSlot
            let b := b.ldcString s
            let b := b.invokevirtual "java/lang/String".toList "equals".toList
                "(Ljava/lang/Object;)Z".toList 1 1
            b.ifne pr.2
          | none => b) b) b
  let b :=
    match defaultIdx with
    | some i => b.goto (bodyLabels.getD i [])
    | none => b.goto endLabel
  let b := (cases.zip bodyLabels).foldl
      (fun b pr =>
        let b := b.setLabel pr.2
        pr.1.stmts.foldl (fun b s => compileStmtFrag ctx2 b s) b) b
  let ctx3 := { ctx2 with switchBreakLabel := oldBreak }
  let b := b.setLabel endLabel
  (counter, ctx3, b)

/-! ## Enum `values()` / `valueOf(String)` (`generator.py`) -/

/-- The parts of `MethodInfo` the enum claims speak about; the `Code`
attribute is flattened to (bytes, max stack, max locals). -/
structure MethodInfoRec where
  accessFlags : Nat
  name : List Char
  descriptor : List Char
  code : List Nat
  codeMaxStack : Int
  codeMaxLocals : Nat
deriving DecidableEq, Repr

/-- `_generate_enum_values_method`: `getstatic $VALUES; invokevirtual
clone; checkcast [LE;; areturn`, flags PUBLIC|STATIC, descriptor
`()[LE;`. -/
def generateEnumValuesMethod (cp : ConstantPool) (className : List Char) :
    MethodInfoRec × ConstantPool :=
  let arrDesc := '[' :: 'L' :: (className ++ [';'])
  let b := newBuilder cp
  let b := b.getstatic className "$VALUES".toList arrDesc 1
  let b := b.invokevirtual arrDesc "clone".toList "()Ljava/lang/Object;".toList 0 1
  let b := b.checkcast arrDesc
  let b := b.areturn
  (⟨9, "values".toList, '(' :: ')' :: arrDesc, b.code, b.maxStack, b.maxLocals⟩, b.cp)

/-- `_generate_enum_valueof_method`: `ldc E.class; aload_0; invokestatic
Enum.valueOf(Class,String); checkcast E; areturn`, flags PUBLIC|STATIC,
descriptor `(Ljava/lang/String;)LE;`. -/
def generateEnumValueofMethod (cp : ConstantPool) (className : List Char) :
    MethodInfoRec × ConstantPool :=
  let b := newBuilder cp
  let ctx : MCtx := ⟨[], 0, none⟩
  let r := ctx.addLocal b "name".toList STRINGT
  let b := r.2.1
  let b := b.ldcClass className
  let b := b.aload 0
  let b := b.invokestatic "java/lang/Enum".toList "valueOf".toList
      "(Ljava/lang/Class;Ljava/lang/String;)Ljava/lang/Enum;".toList 2 1
  let b := b.checkcast className
  let b := b.areturn
  (⟨9, "valueOf".toList,
    ('(' :: "Ljava/lang/String;".toList) ++ ')' :: 'L' :: (className ++ [';']),
    b.code, b.maxStack, b.maxLocals⟩, b.cp)

/-! ## Expression slice for string concatenation (`expressions.py`) -/

/-- Expression fragment: integer literals, string literals and binary `+`. -/
inductive ExprFrag : Type where
  | litInt (v : Int)
  | litStr (s : List Char)
  | plus (l r : ExprFrag)
deriving DecidableEq, Repr

/-- `_estimate_expression_type` on the fragment.  A `BinaryExpression` is
estimated to long/double/float/int ONLY — never to `String`, even when a
subexpression is a string concatenation. -/
def estimateType : ExprFrag → JType
  | .litInt _ => INT
  | .litStr _ => STRINGT
  | .plus l r =>
    let lt := estimateType l
    let rt := estimateType r
    if lt = LONG ∨ rt = LONG then LONG
    else if lt = DOUBLE ∨ rt = DOUBLE then DOUBLE
    else if lt = FLOAT ∨ rt = FLOAT then FLOAT
    else INT

/-- `_is_string_concat`: a `+` whose operands' ESTIMATED types contain
`String`. -/
def isStringConcat : ExprFrag → Bool
  | .plus l r => decide (estimateType l = STRINGT ∨ estimateType r = STRINGT)
  | _ => false

/-- `_collect_concat_parts`. -/
def collectConcatParts : ExprFrag → List ExprFrag
  | .plus l r =>
    if estimateType l = STRINGT ∨ estimateType r = STRINGT then
      collectConcatParts l ++ collectConcatParts r
    else [.plus l r]
  | e => [e]

/-- `binary_numeric_promotion` (`types.py`). -/
def binaryNumericPromotion (l r : JType) : JType :=
  if l = DOUBLE ∨ r = DOUBLE then DOUBLE
  else if l = FLOAT ∨ r = FLOAT then FLOAT
  else if l = LONG ∨ r = LONG then LONG
  else INT

/-- Which `StringBuilder.append` overload `compile_string_concat` picks for
a part's type, with its operand slot count. -/
def appendSigFor (t : JType) : List Char × Int :=
  if t = STRINGT then ("(Ljava/lang/String;)Ljava/lang/StringBuilder;".toList, 1)
  else if t = INT then ("(I)Ljava/lang/StringBuilder;".toList, 1)
  else if t = LONG then ("(J)Ljava/lang/StringBuilder;".toList, 2)
  else if t = FLOAT then ("(F)Ljava/lang/StringBuilder;".toList, 1)
  else if t = DOUBLE then ("(D)Ljava/lang/StringBuilder;".toList, 2)
  else if t = BOOLEAN then ("(Z)Ljava/lang/StringBuilder;".toList, 1)
  else if t = CHAR then ("(C)Ljava/lang/StringBuilder;".toList, 1)
  else ("(Ljava/lang/Object;)Ljava/lang/StringBuilder;".toList, 1)

/-- The per-part loop of `compile_string_concat`: compile the part (with
the supplied recursive compiler), then the type-appropriate `append`
call. -/
def compileConcatPartsWith (f : ExprFrag → Builder → Option (Builder × JType)) :
    List ExprFrag → Builder → Option Builder
  | [], b => some b
  | p :: ps, b =>
    match f p b with
    | none => none
    | some (b, t) =>
      compileConcatPartsWith f ps
        (b.invokevirtual "java/lang/StringBuilder".toList "append".toList
          (appendSigFor t).1 (appendSigFor t).2 1)

/-- `compile_expression` restricted to the fragment: literals, the
string-concatenation path of `compile_binary` (`compile_string_concat`),
and its numeric `+` path.  Fuel only bounds the recursion. -/
def compileExprFrag : Nat → ExprFrag → Builder → Option (Builder × JType)
  | 0, _, _ => none
  | fuel + 1, e, b =>
    match e with
    | .litInt v => some (b.iconst v, INT)
    | .litStr s => some (b.ldcString s, STRINGT)
    | .plus l r =>
      if isStringConcat (.plus l r) then
        let parts := collectConcatParts (.plus l r)
        let b := b.newInstance "java/lang/StringBuilder".toList
        let b := b.dup
        let b := b.invokespecial "java/lang/StringBuilder".toList "<init>".toList
            "()V".toList 0 0
        match compileConcatPartsWith (fun p b => compileExprFrag fuel p b) parts b with
        | none => none
        | some b =>
          some (b.invokevirtual "java/lang/StringBuilder".toList "toString".toList
            "()Ljava/lang/String;".toList 0 1, STRINGT)
      else
        match compileExprFrag fuel l b with
        | none => none
        | some (b, lt) =>
          match compileExprFrag fuel r b with
          | none => none
          | some (b, rt) =>
            let resultType := binaryNumericPromotion lt rt
            let b :=
              if resultType = INT then b.iadd
              else if resultType = LONG then b.ladd
              else if resultType = FLOAT then b.fadd
              else if resultType = DOUBLE then b.dadd
              else b
            some (b, resultType)

theorem indexOfChar_append_self (c : Char) (l : List Char)
    (h : ∀ x ∈ l, x ≠ c) : indexOfChar c (l ++ [c]) = some l.length := by
  induction l with
  | nil => simp [indexOfChar]
  | cons x xs ih =>
    have hx : x ≠ c := h x (by simp)
    have ih' := ih (fun y hy => h y (by simp [hy]))
    simp [indexOfChar, hx, ih']

theorem internalNameChars_eq_self (n : List Char) (h : ∀ c ∈ n, c ≠ '.') :
    internalNameChars n = n := by
  induction n with
  | nil => rfl
  | cons x xs ih =>
    have hx : x ≠ '.' := h x (by simp)
    have ih' := ih (fun c hc => h c (by simp [hc]))
    simp only [internalNameChars] at ih' ⊢
    simp [hx, ih']

theorem parseType_cons_L (rest : List Char) :
    parseTypeFromDescriptor ('L' :: rest) =
      match indexOfChar ';' rest with
      | none => none
      | some i => some (JType.classType (rest.take i), i + 2) := rfl

theorem parseType_cons_bracket (rest : List Char) :
    parseTypeFromDescriptor ('[' :: rest) =
      match parseTypeFromDescriptor rest with
      | none => none
      | some (t, consumed) =>
        match t with
        | .arrayType e d => some (.arrayType e (d + 1), consumed + 1)
        | _ => some (.arrayType t 1, consumed + 1) := rfl

/-- **C10.** Descriptor parsing and descriptor printing are mutually
inverse: parsing a well-formed JVM field/type descriptor with
`_parse_type_from_descriptor` consumes exactly its length and produces a
`JType` whose `descriptor()` reproduces the original string, across
primitive, class and array descriptors of any dimension. -/
theorem parseTypeFromDescriptor_roundTrip (d : List Char) (h : WfDesc d) :
    ∃ t, parseTypeFromDescriptor d = some (t, d.length) ∧ t.descriptor = d := by
  induction h with
  | base c hc =>
    fin_cases hc
    · exact ⟨BYTE, by decide, by decide⟩
    · exact ⟨CHAR, by decide, by decide⟩
    · exact ⟨DOUBLE, by decide, by decide⟩
    · exact ⟨FLOAT, by decide, by decide⟩
    · exact ⟨INT, by decide, by decide⟩
    · exact ⟨LONG, by decide, by decide⟩
    · exact ⟨SHORT, by decide, by decide⟩
    · exact ⟨BOOLEAN, by decide, by decide⟩
    · exact ⟨VOID, by decide, by decide⟩
  | classDesc name hne hchars =>
    have hsemi : indexOfChar ';' (name ++ [';']) = some name.length :=
      indexOfChar_append_self ';' name (fun x hx => (hchars x hx).1)
    refine ⟨JType.classType name, ?_, ?_⟩
    · rw [parseType_cons_L, hsemi]
      have htake : (name ++ [';']).take name.length = name := List.take_left name [';']
      simp [htake]
    · show 'L' :: (internalNameChars name ++ [';']) = 'L' :: (name ++ [';'])
      rw [internalNameChars_eq_self name (fun c hc => (hchars c hc).2.1)]
  | arrayDesc d hd ih =>
    obtain ⟨t, hp, hdesc⟩ := ih
    rw [parseType_cons_bracket] at *
    cases t with
    | arrayType e dd =>
      refine ⟨.arrayType e (dd + 1), ?_, ?_⟩
      · rw [hp]; simp
      · show List.replicate (dd + 1) '[' ++ e.descriptor = '[' :: d
        have hrep : List.replicate dd '[' ++ e.descriptor = d := hdesc
        rw [List.replicate_succ, List.cons_append, hrep]
    | primitive n dsc sz =>
      refine ⟨.arrayType (.primitive n dsc sz) 1, ?_, ?_⟩
      · rw [hp]; simp
      · show List.replicate 1 '[' ++ (JType.primitive n dsc sz).descriptor = '[' :: d
        simp [hdesc]
    | classType n =>
      refine ⟨.arrayType (.classType n) 1, ?_, ?_⟩
      · rw [hp]; simp
      · show List.replicate 1 '[' ++ (JType.classType n).descriptor = '[' :: d
        simp [hdesc]

/-- Witness for C10 at the concrete descriptor `[[Ljava/lang/String;`. -/
theorem parseTypeFromDescriptor_roundTrip_witness :
    ∃ t, parseTypeFromDescriptor ("[[Ljava/lang/String;".toList) =
        some (t, ("[[Ljava/lang/String;".toList).length) ∧
      t.descriptor = "[[Ljava/lang/String;".toList := by
  have he : ("[[Ljava/lang/String;".toList) =
      '[' :: ('[' :: ('L' :: ("java/lang/String".toList ++ [';']))) := by decide
  refine parseTypeFromDescriptor_roundTrip _ ?_
  rw [he]
  exact WfDesc.arrayDesc _ (WfDesc.arrayDesc _
    (WfDesc.classDesc _ (by decide) (by decide)))

/-! ### Constant-pool lemmas -/

theorem countOcc_append (e : CpEntry) (l m : List (Option CpEntry)) :
    countOcc e (l ++ m) = countOcc e l + countOcc e m := by
  induction l with
  | nil => simp [countOcc]
  | cons x xs ih => simp [countOcc, ih]; omega

theorem cpAdd_of_lookup (p : ConstantPool) (e : CpEntry) (i : Nat)
    (h : cacheLookup e p.cache = some i) : cpAdd p e = (p, i) := by
  simp [cpAdd, h]

theorem lookup_cpAdd_self (p : ConstantPool) (e : CpEntry) :
    cacheLookup e (cpAdd p e).1.cache = some (cpAdd p e).2 := by
  unfold cpAdd
  cases h : cacheLookup e p.cache with
  | some i => simp [h]
  | none => simp [h, cacheLookup]

theorem cpAdd_idem (p : ConstantPool) (e : CpEntry) :
    cpAdd (cpAdd p e).1 e = cpAdd p e := by
  have h := lookup_cpAdd_self p e
  rw [cpAdd_of_lookup _ _ _ h]

theorem lookup_cpAdd_mono (p : ConstantPool) (e e' : CpEntry) (i : Nat)
    (h : cacheLookup e p.cache = some i) :
    cacheLookup e (cpAdd p e').1.cache = some i := by
  unfold cpAdd
  cases h' : cacheLookup e' p.cache with
  | some j => simpa [h']
  | none =>
    have hne : e' ≠ e := by
      intro he; rw [he] at h'; rw [h'] at h; exact Option.noConfusion h
    simp [h', cacheLookup, hne, h]

theorem getElem_cpAdd_mono (p : ConstantPool) (e : CpEntry) (i : Nat)
    (x : Option CpEntry) (h : p.entries[i]? = some x) :
    (cpAdd p e).1.entries[i]? = some x := by
  unfold cpAdd
  cases h' : cacheLookup e p.cache with
  | some j => simpa [h']
  | none =>
    have hi : i < p.entries.length := by
      rcases List.getElem?_eq_some_iff.mp h with ⟨hlt, _⟩
      exact hlt
    simp only [h']
    rw [List.getElem?_append, if_pos hi]
    exact h

theorem cpWf_cpAdd (p : ConstantPool) (e : CpEntry) (h : CpWf p) :
    CpWf (cpAdd p e).1 := by
  obtain ⟨h1, h2⟩ := h
  unfold cpAdd
  cases hl : cacheLookup e p.cache with
  | some i => simpa [hl] using ⟨h1, h2⟩
  | none =>
    simp only [hl]
    constructor
    · intro e' i' hli
      simp only [cacheLookup] at hli
      by_cases he : e = e'
      · subst he
        simp only [if_pos rfl] at hli
        cases hli
        constructor
        · rw [List.getElem?_append_right (Nat.le_refl _)]
          simp
        · rw [countOcc_append, h2 e hl]
          cases e <;> simp [countOcc, CpEntry.isTwoSlot]
      · rw [if_neg he] at hli
        obtain ⟨hg, hc⟩ := h1 e' i' hli
        constructor
        · have hi : i' < p.entries.length := by
            rcases List.getElem?_eq_some_iff.mp hg with ⟨hlt, _⟩
            exact hlt
          show (p.entries ++ some e :: if e.isTwoSlot = true then [none] else [])[i']? = some (some e')
          rw [List.getElem?_append, if_pos hi]; exact hg
        · rw [countOcc_append, hc]
          have : e ≠ e' := he
          cases e <;> cases e' <;>
            simp_all [countOcc, CpEntry.isTwoSlot]
    · intro e' hli
      simp only [cacheLookup] at hli
      by_cases he : e = e'
      · simp [if_pos he] at hli
      · rw [if_neg he] at hli
        rw [countOcc_append, h2 e' hli]
        cases e <;> simp_all [countOcc, CpEntry.isTwoSlot]

theorem cpWf_empty : CpWf emptyPool := by
  constructor
  · intro e i h; simp [cacheLookup, emptyPool] at h
  · intro e _; simp [countOcc, emptyPool]

theorem cpAdd_entry_at (p : ConstantPool) (e : CpEntry) (h : CpWf p) :
    (cpAdd p e).1.entries[(cpAdd p e).2]? = some (some e) ∧
      countOcc e (cpAdd p e).1.entries = 1 := by
  obtain ⟨h1, h2⟩ := h
  unfold cpAdd
  cases hl : cacheLookup e p.cache with
  | some i => simpa [hl] using h1 e i hl
  | none =>
    simp only [hl]
    constructor
    · rw [List.getElem?_append_right (Nat.le_refl _)]
      simp
    · rw [countOcc_append, h2 e hl]
      cases e <;> simp [countOcc, CpEntry.isTwoSlot]

/-- Cache growth: every cached index stays valid under further adds. -/
def PoolExt (p q : ConstantPool) : Prop :=
  ∀ e i, cacheLookup e p.cache = some i → cacheLookup e q.cache = some i

theorem poolExt_refl (p : ConstantPool) : PoolExt p p := fun _ _ h => h

theorem poolExt_cpAdd (p : ConstantPool) (e : CpEntry) :
    PoolExt p (cpAdd p e).1 := fun e' i h => lookup_cpAdd_mono p e' e i h

theorem poolExt_trans {p q r : ConstantPool} (h1 : PoolExt p q)
    (h2 : PoolExt q r) : PoolExt p r := fun e i h => h2 e i (h1 e i h)

theorem cpAdd_of_ext (p q : ConstantPool) (e : CpEntry)
    (hext : PoolExt (cpAdd p e).1 q) :
    cpAdd q e = (q, (cpAdd p e).2) :=
  cpAdd_of_lookup _ _ _ (hext _ _ (lookup_cpAdd_self p e))

theorem addClass_eq (p : ConstantPool) (n : List Char) :
    addClass p n = cpAdd (addUtf8 p n).1 (.classRef (addUtf8 p n).2) := rfl

theorem addString_eq (p : ConstantPool) (s : List Char) :
    addString p s = cpAdd (addUtf8 p s).1 (.stringRef (addUtf8 p s).2) := rfl

theorem addNameAndType_eq (p : ConstantPool) (n d : List Char) :
    addNameAndType p n d =
      cpAdd (addUtf8 (addUtf8 p n).1 d).1
        (.nameAndType (addUtf8 p n).2 (addUtf8 (addUtf8 p n).1 d).2) := rfl

theorem addMethodref_eq (p : ConstantPool) (c m d : List Char) :
    addMethodref p c m d =
      cpAdd (addNameAndType (addClass p c).1 m d).1
        (.methodref (addClass p c).2 (addNameAndType (addClass p c).1 m d).2) := rfl

theorem poolExt_addClass (p : ConstantPool) (n : List Char) :
    PoolExt p (addClass p n).1 := by
  rw [addClass_eq]
  exact poolExt_trans (poolExt_cpAdd p _) (poolExt_cpAdd _ _)

theorem poolExt_addNameAndType (p : ConstantPool) (n d : List Char) :
    PoolExt p (addNameAndType p n d).1 := by
  rw [addNameAndType_eq]
  exact poolExt_trans (poolExt_cpAdd p _)
    (poolExt_trans (poolExt_cpAdd _ _) (poolExt_cpAdd _ _))

theorem addClass_of_ext (p q : ConstantPool) (n : List Char)
    (hext : PoolExt (addClass p n).1 q) :
    addClass q n = (q, (addClass p n).2) := by
  have hu : addUtf8 q n = (q, (addUtf8 p n).2) := by
    refine cpAdd_of_ext p q (.utf8 n) ?_
    refine poolExt_trans ?_ hext
    rw [addClass_eq]
    exact poolExt_cpAdd _ _
  rw [addClass_eq, hu]
  exact cpAdd_of_ext (addUtf8 p n).1 q _ (by rw [addClass_eq] at hext; exact hext)

theorem addString_of_ext (p q : ConstantPool) (s : List Char)
    (hext : PoolExt (addString p s).1 q) :
    addString q s = (q, (addString p s).2) := by
  have hu : addUtf8 q s = (q, (addUtf8 p s).2) := by
    refine cpAdd_of_ext p q (.utf8 s) ?_
    refine poolExt_trans ?_ hext
    rw [addString_eq]
    exact poolExt_cpAdd _ _
  rw [addString_eq, hu]
  exact cpAdd_of_ext (addUtf8 p s).1 q _ (by rw [addString_eq] at hext; exact hext)

theorem addNameAndType_of_ext (p q : ConstantPool) (n d : List Char)
    (hext : PoolExt (addNameAndType p n d).1 q) :
    addNameAndType q n d = (q, (addNameAndType p n d).2) := by
  have hext1 : PoolExt (addUtf8 p n).1 q := by
    refine poolExt_trans ?_ hext
    rw [addNameAndType_eq]
    exact poolExt_trans (poolExt_cpAdd _ _) (poolExt_cpAdd _ _)
  have hext2 : PoolExt (addUtf8 (addUtf8 p n).1 d).1 q := by
    refine poolExt_trans ?_ hext
    rw [addNameAndType_eq]
    exact poolExt_cpAdd _ _
  have hu1 : addUtf8 q n = (q, (addUtf8 p n).2) := cpAdd_of_ext p q _ hext1
  have hu2 : addUtf8 q d = (q, (addUtf8 (addUtf8 p n).1 d).2) :=
    cpAdd_of_ext (addUtf8 p n).1 q _ hext2
  rw [addNameAndType_eq, hu1, hu2]
  exact cpAdd_of_ext (addUtf8 (addUtf8 p n).1 d).1 q _
    (by rw [addNameAndType_eq] at hext; exact hext)

theorem addClass_idem (p : ConstantPool) (n : List Char) :
    addClass (addClass p n).1 n = addClass p n := by
  rw [addClass_of_ext p (addClass p n).1 n (poolExt_refl _)]

theorem addString_idem (p : ConstantPool) (s : List Char) :
    addString (addString p s).1 s = addString p s := by
  rw [addString_of_ext p (addString p s).1 s (poolExt_refl _)]

theorem addMethodref_idem (p : ConstantPool) (c m d : List Char) :
    addMethodref (addMethodref p c m d).1 c m d = addMethodref p c m d := by
  have hextQ : PoolExt (addNameAndType (addClass p c).1 m d).1
      (addMethodref p c m d).1 := by
    rw [addMethodref_eq]
    exact poolExt_cpAdd _ _
  have hc : addClass (addMethodref p c m d).1 c =
      ((addMethodref p c m d).1, (addClass p c).2) :=
    addClass_of_ext p _ c
      (poolExt_trans (poolExt_addNameAndType (addClass p c).1 m d) hextQ)
  have hn : addNameAndType (addMethodref p c m d).1 m d =
      ((addMethodref p c m d).1, (addNameAndType (addClass p c).1 m d).2) :=
    addNameAndType_of_ext (addClass p c).1 _ m d hextQ
  rw [addMethodref_eq (addMethodref p c m d).1, hc, hn]
  exact cpAdd_of_ext (addNameAndType (addClass p c).1 m d).1 _ _
    (by rw [addMethodref_eq] at *; exact poolExt_refl _)

theorem cpWf_addClass (p : ConstantPool) (n : List Char) (h : CpWf p) :
    CpWf (addClass p n).1 := by
  rw [addClass_eq]
  exact cpWf_cpAdd _ _ (cpWf_cpAdd _ _ h)

theorem cpWf_addString (p : ConstantPool) (s : List Char) (h : CpWf p) :
    CpWf (addString p s).1 := by
  rw [addString_eq]
  exact cpWf_cpAdd _ _ (cpWf_cpAdd _ _ h)

theorem cpWf_addNameAndType (p : ConstantPool) (n d : List Char) (h : CpWf p) :
    CpWf (addNameAndType p n d).1 := by
  rw [addNameAndType_eq]
  exact cpWf_cpAdd _ _ (cpWf_cpAdd _ _ (cpWf_cpAdd _ _ h))

theorem cpWf_addMethodref (p : ConstantPool) (c m d : List Char) (h : CpWf p) :
    CpWf (addMethodref p c m d).1 := by
  rw [addMethodref_eq]
  exact cpWf_cpAdd _ _ (cpWf_addNameAndType _ m d (cpWf_addClass _ c h))

/-- **C6.** Every constant-pool add operation is idempotent on value
equality: a second call with equal values returns the identical
pool-and-index pair (the pool state is untouched), and the pool holds
exactly one entry for the added value; this covers the simple tags
(utf8, integer, long — the two-slot case) and the compound ones (class,
string, methodref), whose nested adds are de-duplicated as well. -/
theorem constantPool_add_idempotent (p : ConstantPool) (h : CpWf p) :
    (∀ s, addUtf8 (addUtf8 p s).1 s = addUtf8 p s ∧
      countOcc (.utf8 s) (addUtf8 p s).1.entries = 1) ∧
    (∀ v, addInteger (addInteger p v).1 v = addInteger p v ∧
      countOcc (.integer v) (addInteger p v).1.entries = 1) ∧
    (∀ v, addLong (addLong p v).1 v = addLong p v ∧
      countOcc (.long v) (addLong p v).1.entries = 1) ∧
    (∀ n, addClass (addClass p n).1 n = addClass p n ∧
      ∃ e, (addClass p n).1.entries[(addClass p n).2]? = some (some e) ∧
        countOcc e (addClass p n).1.entries = 1) ∧
    (∀ s, addString (addString p s).1 s = addString p s ∧
      ∃ e, (addString p s).1.entries[(addString p s).2]? = some (some e) ∧
        countOcc e (addString p s).1.entries = 1) ∧
    (∀ c m d, addMethodref (addMethodref p c m d).1 c m d = addMethodref p c m d ∧
      ∃ e, (addMethodref p c m d).1.entries[(addMethodref p c m d).2]? =
          some (some e) ∧
        countOcc e (addMethodref p c m d).1.entries = 1) := by
  refine ⟨fun s => ⟨cpAdd_idem p _, (cpAdd_entry_at p _ h).2⟩,
    fun v => ⟨cpAdd_idem p _, (cpAdd_entry_at p _ h).2⟩,
    fun v => ⟨cpAdd_idem p _, (cpAdd_entry_at p _ h).2⟩, ?_, ?_, ?_⟩
  · intro n
    have hw1 : CpWf (addUtf8 p n).1 := cpWf_cpAdd p _ h
    exact ⟨addClass_idem p n, .classRef (addUtf8 p n).2,
      (cpAdd_entry_at (addUtf8 p n).1 _ hw1).1,
      (cpAdd_entry_at (addUtf8 p n).1 _ hw1).2⟩
  · intro s
    have hw1 : CpWf (addUtf8 p s).1 := cpWf_cpAdd p _ h
    exact ⟨addString_idem p s, .stringRef (addUtf8 p s).2,
      (cpAdd_entry_at (addUtf8 p s).1 _ hw1).1,
      (cpAdd_entry_at (addUtf8 p s).1 _ hw1).2⟩
  · intro c m d
    have hw2 : CpWf (addNameAndType (addClass p c).1 m d).1 :=
      cpWf_addNameAndType _ m d (cpWf_addClass _ c h)
    exact ⟨addMethodref_idem p c m d,
      .methodref (addClass p c).2 (addNameAndType (addClass p c).1 m d).2,
      (cpAdd_entry_at _ _ hw2).1, (cpAdd_entry_at _ _ hw2).2⟩

/-- Witness for C6 at the empty pool with concrete values. -/
theorem constantPool_add_idempotent_witness :
    addUtf8 (addUtf8 emptyPool "Code".toList).1 "Code".toList =
      addUtf8 emptyPool "Code".toList ∧
    countOcc (.utf8 "Code".toList) (addUtf8 emptyPool "Code".toList).1.entries = 1 :=
  (constantPool_add_idempotent emptyPool cpWf_empty).1 "Code".toList

theorem addIntegerRange_spec (n : Nat) :
    (addIntegerRange n).entries.length = n + 1 ∧
    ∀ k, cacheLookup (.integer (Int.ofNat k)) (addIntegerRange n).cache =
      if k < n then some (k + 1) else none := by
  induction n with
  | zero =>
    refine ⟨rfl, fun k => ?_⟩
    simp [addIntegerRange, emptyPool, cacheLookup]
  | succ n ih =>
    obtain ⟨ihLen, ihLookup⟩ := ih
    have hstep : addIntegerRange (n + 1) =
        (addInteger (addIntegerRange n) (Int.ofNat n)).1 := by
      unfold addIntegerRange
      rw [List.range_succ, List.foldl_append]
      rfl
    have hmiss : cacheLookup (.integer (Int.ofNat n)) (addIntegerRange n).cache =
        none := by
      have := ihLookup n
      simpa using this
    have hadd : addInteger (addIntegerRange n) (Int.ofNat n) =
        (⟨(addIntegerRange n).entries ++ [some (.integer (Int.ofNat n))],
          (.integer (Int.ofNat n), (addIntegerRange n).entries.length) ::
            (addIntegerRange n).cache⟩, (addIntegerRange n).entries.length) := by
      unfold addInteger cpAdd
      rw [hmiss]
      simp [CpEntry.isTwoSlot]
    constructor
    · rw [hstep, hadd]
      simp [ihLen]
    · intro k
      rw [hstep, hadd]
      by_cases hk : k = n
      · subst hk
        simp [cacheLookup, ihLen, Nat.lt_succ_self]
      · have hne : (CpEntry.integer (Int.ofNat n)) ≠ (.integer (Int.ofNat k)) := by
          intro hcon
          apply hk
          cases hcon
          rfl
        show cacheLookup (CpEntry.integer (Int.ofNat k))
            ((CpEntry.integer (Int.ofNat n), (addIntegerRange n).entries.length) ::
              (addIntegerRange n).cache) = _
        simp only [cacheLookup, if_neg hne]
        rw [ihLookup k]
        by_cases h' : k < n
        · rw [if_pos h', if_pos (by omega)]
        · rw [if_neg h', if_neg (by omega)]

/-- **C4 (amended).** `ConstantPool._add` performs no overflow check at
all: adding a fresh entry always succeeds and returns the current length
of the entry list as the index.  In particular, after 65 535 distinct
`add_integer` calls the list already holds `n + 1 = 65 536` slots and the
next add returns the out-of-range index 65 536; no `ClassTooLarge` (nor
any other failure) is signalled at add time. -/
theorem cpAdd_no_overflow_check (n : Nat) :
    (addIntegerRange n).entries.length = n + 1 ∧
    addInteger (addIntegerRange n) (Int.ofNat n) =
      (⟨(addIntegerRange n).entries ++ [some (.integer (Int.ofNat n))],
        (.integer (Int.ofNat n), n + 1) :: (addIntegerRange n).cache⟩, n + 1) := by
  obtain ⟨hLen, hLookup⟩ := addIntegerRange_spec n
  have hmiss : cacheLookup (.integer (Int.ofNat n)) (addIntegerRange n).cache =
      none := by simpa using hLookup n
  refine ⟨hLen, ?_⟩
  unfold addInteger cpAdd
  rw [hmiss]
  simp [CpEntry.isTwoSlot, hLen]

/-- **C4 counterexample.** A concrete sequence of adds that drives an
entry's index past 65 535: `_add` (modelled by `cpAdd`, a total function
with no failure outcome, exactly like the source which raises nothing)
returns the out-of-range index 65 536 — there is no fatal `ClassTooLarge`
signal. -/
theorem cpAdd_overflow_counterexample :
    (addIntegerRange 65535).entries.length = 65536 ∧
    (addInteger (addIntegerRange 65535) (Int.ofNat 65535)).2 = 65536 ∧
    65535 < (addInteger (addIntegerRange 65535) (Int.ofNat 65535)).2 := by
  obtain ⟨h1, h2⟩ := cpAdd_no_overflow_check 65535
  exact ⟨h1, by rw [h2], by rw [h2]; omega⟩

/-! ### Class-file version selection (C3) -/

theorem interfaceNeedsJava8_iff (body : List IfaceMember) :
    interfaceNeedsJava8 body = true ↔ IfaceMember.methodDecl true ∈ body := by
  unfold interfaceNeedsJava8
  rw [List.any_eq_true]
  constructor
  · rintro ⟨m, hm, hf⟩
    cases m with
    | methodDecl hb =>
      cases hb with
      | true => exact hm
      | false => simp at hf
    | fieldDecl => simp at hf
    | otherMember => simp at hf
  · intro hm
    exact ⟨_, hm, rfl⟩

/-- **C3.** The emitted class-file version is 50.0 by default
(`ClassFile.__init__`, used unchanged by `compile_class` and
`compile_enum`) and 52.0 exactly when the compiled type is an interface
one of whose members is a method with a body (`compile_interface`); the
serialized header places the version, minor then major big-endian, right
after the magic.  (The invokedynamic/lambda disjunct of the claim is
vacuous for this code base: `compile_expression` has no lambda branch
and `BytecodeBuilder` has no invokedynamic emitter, so no compiled class
ever contains an `invokedynamic` instruction.) -/
theorem classFileVersion_selection (body : List IfaceMember) :
    (compileInterfaceVersion body = JAVA8VERSION ↔
      IfaceMember.methodDecl true ∈ body) ∧
    (compileInterfaceVersion body = JAVA8VERSION ∨
      compileInterfaceVersion body = JAVA6VERSION) ∧
    classFileDefaultVersion = JAVA6VERSION ∧
    classFileHeaderBytes JAVA6VERSION = [0xCA, 0xFE, 0xBA, 0xBE, 0, 0, 0, 50] ∧
    classFileHeaderBytes JAVA8VERSION = [0xCA, 0xFE, 0xBA, 0xBE, 0, 0, 0, 52] := by
  refine ⟨?_, ?_, rfl, by decide, by decide⟩
  · rw [← interfaceNeedsJava8_iff]
    unfold compileInterfaceVersion
    cases hb : interfaceNeedsJava8 body with
    | true => simp [hb]
    | false => simp [hb, JAVA6VERSION, JAVA8VERSION]
  · unfold compileInterfaceVersion
    cases hb : interfaceNeedsJava8 body with
    | true => simp [hb]
    | false => simp [hb]

/-! ### lookupswitch (C5) -/

theorem int4Bytes_length (v : Int) : (int4Bytes v).length = 4 := rfl

theorem insertPair_perm (x : Int × List Char) (l : List (Int × List Char)) :
    (insertPair x l).Perm (x :: l) := by
  induction l with
  | nil => exact List.Perm.refl _
  | cons y ys ih =>
    unfold insertPair
    by_cases h : x.1 ≤ y.1
    · rw [if_pos h]
    · rw [if_neg h]
      exact (ih.cons y).trans (List.Perm.swap x y ys)

theorem sortPairs_perm (l : List (Int × List Char)) : (sortPairs l).Perm l := by
  induction l with
  | nil => exact List.Perm.refl _
  | cons x xs ih =>
    exact (insertPair_perm x (sortPairs xs)).trans (ih.cons x)

theorem insertPair_pairwise (x : Int × List Char) (l : List (Int × List Char))
    (h : List.Pairwise (fun a b : Int × List Char => a.1 ≤ b.1) l) :
    List.Pairwise (fun a b : Int × List Char => a.1 ≤ b.1) (insertPair x l) := by
  induction l with
  | nil => simp [insertPair]
  | cons y ys ih =>
    unfold insertPair
    rcases List.pairwise_cons.mp h with ⟨hy, hys⟩
    by_cases hle : x.1 ≤ y.1
    · rw [if_pos hle]
      refine List.pairwise_cons.mpr ⟨?_, h⟩
      intro z hz
      rcases List.mem_cons.mp hz with hz | hz
      · cases hz; exact hle
      · exact hle.trans (hy z hz)
    · rw [if_neg hle]
      refine List.pairwise_cons.mpr ⟨?_, ih hys⟩
      intro z hz
      have hz' : z ∈ x :: ys := (insertPair_perm x ys).mem_iff.mp hz
      rcases List.mem_cons.mp hz' with hz' | hz'
      · cases hz'; exact le_of_not_le hle
      · exact hy z hz'

theorem sortPairs_pairwise (l : List (Int × List Char)) :
    List.Pairwise (fun a b : Int × List Char => a.1 ≤ b.1) (sortPairs l) := by
  induction l with
  | nil => simp [sortPairs]
  | cons x xs ih => exact insertPair_pairwise x (sortPairs xs) ih

/-- Forward references the pair loop of `lookupswitch` appends, given the
code position at loop entry. -/
def pairRefs (instrStart : Nat) : List (Int × List Char) → Nat → List FRef
  | [], _ => []
  | mc :: rest, pos => FRef.wide mc.2 (pos + 4) instrStart :: pairRefs instrStart rest (pos + 8)

theorem lookupswitchFold_spec (instrStart : Nat) (ps : List (Int × List Char)) :
    ∀ b : Builder,
    (ps.foldl (fun b1 mc =>
      { b1 with
        code := b1.code ++ (int4Bytes mc.1 ++ int4Bytes 0),
        fwdRefs := b1.fwdRefs ++ [FRef.wide mc.2 (b1.code.length + 4) instrStart] }) b) =
    { b with
      code := b.code ++ ps.flatMap (fun mc => int4Bytes mc.1 ++ int4Bytes 0),
      fwdRefs := b.fwdRefs ++ pairRefs instrStart ps b.code.length } := by
  induction ps with
  | nil => intro b; simp [pairRefs]
  | cons mc rest ih =>
    intro b
    rw [List.foldl_cons, ih]
    simp [pairRefs, int4Bytes_length, List.append_assoc]

theorem innerDefaultFold (labels : List (Option Int)) (clab : List Char) :
    ∀ acc : List Char,
    labels.foldl (fun a l => match l with | none => clab | some _ => a) acc =
      if (none : Option Int) ∈ labels then clab else acc := by
  induction labels with
  | nil => intro acc; simp
  | cons l ls ih =>
    intro acc
    cases l with
    | none => simp [ih]
    | some v =>
      rw [List.foldl_cons, ih]
      by_cases h : (none : Option Int) ∈ ls
      · rw [if_pos h, if_pos (List.mem_cons_of_mem _ h)]
      · rw [if_neg h, if_neg (by simp [h])]

theorem computeDefaultLabel_spec (caseItems : List (List (Option Int) × List Char))
    (endLabel : List Char) :
    computeDefaultLabel caseItems endLabel =
      (match (caseItems.filter
          (fun item => decide ((none : Option Int) ∈ item.1))).getLast? with
       | none => endLabel
       | some item => item.2) := by
  induction caseItems using List.reverseRecOn with
  | nil => rfl
  | append_singleton items it ih =>
    unfold computeDefaultLabel at ih ⊢
    rw [List.foldl_append, List.foldl_cons, List.foldl_nil, innerDefaultFold, ih,
      List.filter_append]
    by_cases h : (none : Option Int) ∈ it.1
    · simp [h]
    · simp [h]

/-- **C5.** `lookupswitch` emission: after the opcode, 0–3 zero bytes of
padding are inserted so that the default-offset field starts on a 4-byte
boundary relative to the start of the method's code; the emitted
match/offset pairs are those of the input sorted ascending by match value
(a permutation of the input, keys pairwise `≤`), regardless of source
order; the default-offset forward reference is recorded for the supplied
default label, and `_compile_switch` supplies the end-of-switch label as
the default unless some case carries a `default:` label (in which case the
last such case's label wins). -/
theorem lookupswitch_spec (b : Builder) (defaultLabel : List Char)
    (cases : List (Int × List Char))
    (caseItems : List (List (Option Int) × List Char)) (endLabel : List Char) :
    (4 - (b.code.length + 1) % 4) % 4 ≤ 3 ∧
    ((b.code.length + 1) + (4 - (b.code.length + 1) % 4) % 4) % 4 = 0 ∧
    (b.lookupswitch defaultLabel cases).code =
      b.code ++ [0xAB] ++ List.replicate ((4 - (b.code.length + 1) % 4) % 4) 0 ++
        int4Bytes 0 ++ int4Bytes (Int.ofNat cases.length) ++
        (sortPairs cases).flatMap (fun mc => int4Bytes mc.1 ++ int4Bytes 0) ∧
    List.Pairwise (fun a c : Int × List Char => a.1 ≤ c.1) (sortPairs cases) ∧
    (sortPairs cases).Perm cases ∧
    (b.lookupswitch defaultLabel cases).fwdRefs =
      b.fwdRefs ++
        (FRef.wide defaultLabel
            ((b.code.length + 1) + (4 - (b.code.length + 1) % 4) % 4)
            (b.code.length) ::
          pairRefs (b.code.length) (sortPairs cases)
            ((b.code.length + 1) + (4 - (b.code.length + 1) % 4) % 4 + 8)) ∧
    computeDefaultLabel caseItems endLabel =
      (match (caseItems.filter
          (fun item => decide ((none : Option Int) ∈ item.1))).getLast? with
       | none => endLabel
       | some item => item.2) := by
  refine ⟨by omega, by omega, ?_, sortPairs_pairwise cases, sortPairs_perm cases,
    ?_, computeDefaultLabel_spec caseItems endLabel⟩
  · unfold Builder.lookupswitch Builder.emit Builder.popN
    simp [int4Bytes_length, List.append_assoc, Nat.add_sub_cancel]
    rw [lookupswitchFold_spec]
    simp [List.append_assoc]
  · unfold Builder.lookupswitch Builder.emit Builder.popN
    simp [int4Bytes_length, List.append_assoc, Nat.add_sub_cancel]
    rw [lookupswitchFold_spec]
    simp only [List.append_assoc, List.cons_append, List.nil_append,
      List.singleton_append, List.length_append, List.length_cons,
      List.length_replicate, int4Bytes_length]
    congr 2
    · congr 1
      omega
    · congr 1
      omega

/-! ### Most-specific selection (C1) -/

theorem mostSpecificFold_spec (argTypes : List JType) :
    ∀ (rest : List ResolvedMethod) (first : ResolvedMethod),
    ∃ pre post, first :: rest = pre ++ mostSpecificFold first rest argTypes :: post ∧
      ∀ d ∈ post, methodMoreSpecific d (mostSpecificFold first rest argTypes) argTypes = false := by
  intro rest
  induction rest with
  | nil =>
    intro first
    exact ⟨[], [], rfl, by simp⟩
  | cons d t ih =>
    intro first
    by_cases h : methodMoreSpecific d first argTypes = true
    · obtain ⟨pre, post, heq, hpost⟩ := ih d
      have hfold : mostSpecificFold first (d :: t) argTypes =
          mostSpecificFold d t argTypes := by
        unfold mostSpecificFold
        rw [List.foldl_cons, if_pos h]
      refine ⟨first :: pre, post, ?_, ?_⟩
      · rw [hfold, List.cons_append, ← heq]
      · intro e he
        rw [hfold]
        exact hpost e he
    · obtain ⟨pre, post, heq, hpost⟩ := ih first
      have hfold : mostSpecificFold first (d :: t) argTypes =
          mostSpecificFold first t argTypes := by
        unfold mostSpecificFold
        rw [List.foldl_cons, if_neg h]
      cases pre with
      | nil =>
        simp only [List.nil_append] at heq
        have hf : first = mostSpecificFold first t argTypes :=
          (List.cons.injEq _ _ _ _).mp heq |>.1
        have hp : t = post := (List.cons.injEq _ _ _ _).mp heq |>.2
        refine ⟨[], d :: t, ?_, ?_⟩
        · rw [hfold, List.nil_append, ← hf]
        · intro e he
          rw [hfold, ← hf]
          rcases List.mem_cons.mp he with he | he
          · subst he
            exact Bool.not_eq_true _ ▸ (Bool.eq_false_iff.mpr h)
          · have := hpost e (hp ▸ he)
            rw [← hf] at this
            exact this
      | cons p0 pre' =>
        rw [List.cons_append] at heq
        have hf : first = p0 := (List.cons.injEq _ _ _ _).mp heq |>.1
        have ht : t = pre' ++ mostSpecificFold first t argTypes :: post :=
          (List.cons.injEq _ _ _ _).mp heq |>.2
        refine ⟨first :: d :: pre', post, ?_, ?_⟩
        · rw [hfold]
          simp only [List.cons_append]
          rw [← ht]
        · intro e he
          rw [hfold]
          exact hpost e he

theorem mostSpecificFold_mem (argTypes : List JType)
    (rest : List ResolvedMethod) (first : ResolvedMethod) :
    mostSpecificFold first rest argTypes ∈ first :: rest := by
  obtain ⟨pre, post, heq, -⟩ := mostSpecificFold_spec argTypes rest first
  rw [heq]
  exact List.mem_append.mpr (Or.inr (List.mem_cons_self _ _))

/-- **C1 (amended).** With applicable candidates `(int)`, `(long)` and
`(Object)` and a single actual of type `byte`, resolution picks the
`(int)` candidate in every one of the six candidate orders.  In general,
`_most_specific_method` is a left fold with `_method_more_specific` — a
single-position rule — and the returned candidate is one that no
LATER-considered candidate beats under that rule; being unbeaten by EVERY
other candidate under the spec's every-position rule does not hold (see
the counterexample). -/
theorem mostSpecificMethod_spec :
    (∀ (first : ResolvedMethod) (rest : List ResolvedMethod) (argTypes : List JType),
      ∃ pre post r, mostSpecificMethod (first :: rest) argTypes = some r ∧
        first :: rest = pre ++ r :: post ∧
        ∀ d ∈ post, methodMoreSpecific d r argTypes = false) ∧
    mostSpecificMethod [candInt, candLong, candObject] [BYTE] = some candInt ∧
    mostSpecificMethod [candInt, candObject, candLong] [BYTE] = some candInt ∧
    mostSpecificMethod [candLong, candInt, candObject] [BYTE] = some candInt ∧
    mostSpecificMethod [candLong, candObject, candInt] [BYTE] = some candInt ∧
    mostSpecificMethod [candObject, candInt, candLong] [BYTE] = some candInt ∧
    mostSpecificMethod [candObject, candLong, candInt] [BYTE] = some candInt := by
  refine ⟨?_, by decide, by decide, by decide, by decide, by decide, by decide⟩
  intro first rest argTypes
  obtain ⟨pre, post, heq, hpost⟩ := mostSpecificFold_spec argTypes rest first
  exact ⟨pre, post, mostSpecificFold first rest argTypes, rfl, heq, hpost⟩

/-- **C1 counterexample.** The resolution query on class `C` (overloads
`m(short,short)`, `m(byte,long)`, `m(int,int)` in that order) with actual
argument types `(byte, short)` returns the `m(int,int)` candidate, yet the
applicable candidate `m(short,short)` is strictly more specific at every
parameter position under the claim's pairwise rule — so the returned
candidate is NOT one that no other candidate beats. -/
theorem mostSpecificMethod_counterexample :
    findMethod overloadCtx 10 "C".toList "m".toList [BYTE, SHORT] =
      .ok (some ⟨"C".toList, "m".toList, "(II)V".toList, true, false, VOID,
        [INT, INT], false⟩) ∧
    collectCandidates overloadCtx "m".toList [BYTE, SHORT] false 2
        (some overloadClassC) =
      .ok [⟨"C".toList, "m".toList, "(SS)V".toList, true, false, VOID,
            [SHORT, SHORT], false⟩,
           ⟨"C".toList, "m".toList, "(BJ)V".toList, true, false, VOID,
            [BYTE, LONG], false⟩,
           ⟨"C".toList, "m".toList, "(II)V".toList, true, false, VOID,
            [INT, INT], false⟩] ∧
    specMoreSpecific
      ⟨"C".toList, "m".toList, "(SS)V".toList, true, false, VOID,
        [SHORT, SHORT], false⟩
      ⟨"C".toList, "m".toList, "(II)V".toList, true, false, VOID,
        [INT, INT], false⟩ = true ∧
    (⟨"C".toList, "m".toList, "(SS)V".toList, true, false, VOID,
        [SHORT, SHORT], false⟩ : ResolvedMethod) ≠
      ⟨"C".toList, "m".toList, "(II)V".toList, true, false, VOID,
        [INT, INT], false⟩ := by
  refine ⟨by decide, by decide, by decide, by decide⟩

/-! ### Matching conditions of `_find_method` (C2) -/

theorem localMatch_arity (ctx : GenCtx) (mn : List Char) (argTypes : List JType) :
    ∀ lms r, localMatch ctx mn argTypes lms = some r → r.isVarargs = false →
    r.paramTypes.length = argTypes.length := by
  intro lms
  induction lms with
  | nil =>
    intro r h hv
    simp [localMatch] at h
  | cons lm rest ih =>
    intro r h hv
    simp only [localMatch] at h
    split at h
    · rename_i h1
      injection h with h
      subst h
      simpa using h1
    · split at h
      · split at h
        · split at h
          · split at h
            · split at h
              · injection h with h
                subst h
                simp at hv
              · exact ih r h hv
            · exact ih r h hv
          · exact ih r h hv
        · exact ih r h hv
      · exact ih r h hv

theorem collectFromMethods_sound (ctx : GenCtx) (mn : List Char)
    (argTypes : List JType) (owner : List Char) (isI : Bool) :
    ∀ ms l, collectFromMethods ctx mn argTypes owner isI ms = .ok l →
    ∀ r ∈ l, r.paramTypes.length = argTypes.length ∧
      argsCompatible ctx argTypes r.paramTypes = true ∧ r.isVarargs = false := by
  intro ms
  induction ms with
  | nil =>
    intro l h r hr
    injection h with h
    subst h
    simp at hr
  | cons m rest ih =>
    intro l h r hr
    simp only [collectFromMethods] at h
    split at h
    · exact ih l h r hr
    · split at h
      · simp at h
      · rename_i heqparse
        split at h
        · exact ih l h r hr
        · rename_i hlen
          split at h
          · rename_i hcompat
            split at h
            · simp at h
            · rename_i more heqrec
              injection h with h
              subst h
              rcases List.mem_cons.mp hr with hr | hr
              · subst hr
                exact ⟨not_not.mp hlen, hcompat, rfl⟩
              · exact ih more heqrec r hr
          · exact ih l h r hr

theorem collectCandidates_sound (ctx : GenCtx) (mn : List Char)
    (argTypes : List JType) (isI : Bool) :
    ∀ fuel oc l, collectCandidates ctx mn argTypes isI fuel oc = .ok l →
    ∀ r ∈ l, r.paramTypes.length = argTypes.length ∧
      argsCompatible ctx argTypes r.paramTypes = true ∧ r.isVarargs = false := by
  intro fuel
  induction fuel with
  | zero =>
    intro oc l h r hr
    cases oc with
    | none =>
      injection h with h
      subst h
      simp at hr
    | some cur => simp [collectCandidates] at h
  | succ fuel ih =>
    intro oc l h r hr
    cases oc with
    | none =>
      injection h with h
      subst h
      simp at hr
    | some cur =>
      simp only [collectCandidates] at h
      split at h
      · simp at h
      · rename_i cands heqc
        split at h
        · rename_i sup heqsup
          split at h
          · simp at h
          · rename_i more heqrec
            injection h with h
            subst h
            rcases List.mem_append.mp hr with hr | hr
            · exact collectFromMethods_sound ctx mn argTypes cur.name isI
                cur.methods cands heqc r hr
            · exact ih (lookupClass ctx sup) more heqrec r hr
        · injection h with h
          subst h
          exact collectFromMethods_sound ctx mn argTypes cur.name isI
            cur.methods _ heqc r hr

theorem findFirstIn_sound (f : List Char → Except Unit (Option ResolvedMethod)) :
    ∀ l r, findFirstIn f l = .ok (some r) → ∃ iface ∈ l, f iface = .ok (some r) := by
  intro l
  induction l with
  | nil =>
    intro r h
    simp [findFirstIn] at h
  | cons iface rest ih =>
    intro r h
    simp only [findFirstIn] at h
    split at h
    · simp at h
    · rename_i r0 heq
      injection h with h
      injection h with h
      subst h
      exact ⟨iface, List.mem_cons_self _ _, heq⟩
    · obtain ⟨i, hi, hfi⟩ := ih r h
      exact ⟨i, List.mem_cons_of_mem _ hi, hfi⟩

theorem mostSpecificMethod_mem (cands : List ResolvedMethod) (argTypes : List JType)
    (r : ResolvedMethod) (h : mostSpecificMethod cands argTypes = some r) :
    r ∈ cands := by
  cases cands with
  | nil => simp [mostSpecificMethod] at h
  | cons c rest =>
    simp only [mostSpecificMethod] at h
    injection h with h
    subst h
    exact mostSpecificFold_mem argTypes rest c

theorem findMethod_sound (ctx : GenCtx) : ∀ fuel cn mn argTypes r,
    findMethod ctx fuel cn mn argTypes = .ok (some r) → r.isVarargs = false →
    r.paramTypes.length = argTypes.length ∧
    (ctx.localMethods = [] → argsCompatible ctx argTypes r.paramTypes = true) := by
  intro fuel
  induction fuel with
  | zero =>
    intro cn mn argTypes r h hv
    simp [findMethod] at h
  | succ fuel ih =>
    intro cn mn argTypes r h hv
    simp only [findMethod] at h
    split at h
    · rename_i r0 heq
      injection h with h
      injection h with h
      subst h
      split at heq
      · split at heq
        · rename_i overloads heqo
          refine ⟨localMatch_arity ctx mn argTypes overloads r0 heq hv, ?_⟩
          intro hempty
          rw [hempty] at heqo
          simp [lookupAssoc] at heqo
        · simp at heq
      · simp at heq
    · split at h
      · simp at h
      · rename_i r0 heq
        injection h with h
        injection h with h
        subst h
        split at heq
        · exact ih ctx.superClassName mn argTypes r0 heq hv
        · simp at heq
      · split at h
        · simp at h
        · rename_i cls heqcls
          split at h
          · simp at h
          · rename_i candidates heqcand
            split at h
            · rename_i r0 heqmost
              injection h with h
              injection h with h
              subst h
              have hmem := mostSpecificMethod_mem candidates argTypes r0 heqmost
              have hs := collectCandidates_sound ctx mn argTypes _ _ _ candidates
                heqcand r0 hmem
              exact ⟨hs.1, fun _ => hs.2.1⟩
            · obtain ⟨i, hi, hfi⟩ := findFirstIn_sound _ _ r h
              exact ih i mn argTypes r hfi hv

/-- **C2 (amended).** Matching conditions of method resolution.  (1) A
non-variadic resolved candidate always has parameter count equal to the
argument count.  (2) When the owner is resolved through the class path
(no local-method table), in addition every actual argument type is
assignable — per `_type_assignable` — to the corresponding declared
parameter type.  (3) On primitives, `_type_assignable` agrees with the
table in which the five integral types are ordered
`byte ≤ short ≤ char ≤ int ≤ long` (so `byte→char` and `short→char` are
admitted — NOT the claim's standard widening table), plus the integral-
and float-to-floating conversions.  The claim's full assignability
condition fails for the current class's own methods: the local branch of
`_find_method` matches on arity alone (see the counterexample). -/
theorem findMethod_matching_conditions :
    (∀ (ctx : GenCtx) (fuel : Nat) (cn mn : List Char) (argTypes : List JType)
        (r : ResolvedMethod),
      findMethod ctx fuel cn mn argTypes = .ok (some r) → r.isVarargs = false →
      r.paramTypes.length = argTypes.length) ∧
    (∀ (ctx : GenCtx) (fuel : Nat) (cn mn : List Char) (argTypes : List JType)
        (r : ResolvedMethod),
      ctx.localMethods = [] →
      findMethod ctx fuel cn mn argTypes = .ok (some r) → r.isVarargs = false →
      argsCompatible ctx argTypes r.paramTypes = true) ∧
    (∀ ctx : GenCtx,
      (allPrimitives.all (fun p1 => allPrimitives.all (fun p2 =>
        typeAssignable ctx p1 p2 == codeWideningTable p1 p2))) = true) := by
  refine ⟨?_, ?_, ?_⟩
  · intro ctx fuel cn mn argTypes r h hv
    exact (findMethod_sound ctx fuel cn mn argTypes r h hv).1
  · intro ctx fuel cn mn argTypes r hloc h hv
    exact (findMethod_sound ctx fuel cn mn argTypes r h hv).2 hloc
  · intro ctx
    rfl

/-- Witness for C2 on the class-path query `C.m(byte, short)` against the
overloads of `overloadClassC`: the resolved candidate `m(int,int)` has
matching arity and compatible arguments. -/
theorem findMethod_matching_conditions_witness :
    ([INT, INT] : List JType).length = ([BYTE, SHORT] : List JType).length ∧
    argsCompatible overloadCtx [BYTE, SHORT] [INT, INT] = true := by
  have h1 := findMethod_matching_conditions.1 overloadCtx 10 "C".toList "m".toList
    [BYTE, SHORT]
    ⟨"C".toList, "m".toList, "(II)V".toList, true, false, VOID, [INT, INT], false⟩
    (by decide) (by decide)
  have h2 := findMethod_matching_conditions.2.1 overloadCtx 10 "C".toList "m".toList
    [BYTE, SHORT]
    ⟨"C".toList, "m".toList, "(II)V".toList, true, false, VOID, [INT, INT], false⟩
    rfl (by decide) (by decide)
  exact ⟨h1, h2⟩

/-- **C2 counterexample.** (1) On the class currently being compiled, the
local branch of `_find_method` matches on parameter count alone: the query
`A.m(int)` resolves to the local method `m(String)` although `int` is not
assignable to `String` under either the code's or the claim's rule.
(2) The code's widening admits `byte→char`: the class-path query
`D.m(byte)` resolves to `m(char)` although `byte→char` is not in the
claim's standard widening table. -/
theorem findMethod_matching_counterexample :
    findMethod localCtx 10 "A".toList "m".toList [INT] =
      .ok (some ⟨"A".toList, "m".toList, "(Ljava/lang/String;)V".toList,
        false, false, VOID, [STRINGT], false⟩) ∧
    typeAssignable localCtx INT STRINGT = false ∧
    specWidening INT STRINGT = false ∧
    findMethod charCtx 10 "D".toList "m".toList [BYTE] =
      .ok (some ⟨"D".toList, "m".toList, "(C)V".toList, true, false, VOID,
        [CHAR], false⟩) ∧
    typeAssignable charCtx BYTE CHAR = true ∧
    specWidening BYTE CHAR = false := by
  refine ⟨by decide, by decide, by decide, by decide, by decide, by decide⟩

/-! ### String concatenation (C7) -/

/-- **C7.** When the `+` IS detected as a string concatenation, the claim
holds: `("a" + "b") + "c"` compiles to a single
`new StringBuilder; dup; invokespecial <init>` (one allocation), one
`append` per flattened operand and one final `toString`, with result type
`String`.  But detection uses `_estimate_expression_type`, which never
estimates a `BinaryExpression` to `String`: in `("a" + 1) + 2` the outer
`+` sees operand types `int`/`int`, so instead of flattening into the one
builder it compiles the numeric path — the emitted code ends with
`iconst_2; iadd` (bytes `0x05 0x60`) applied to the inner `toString`
result, and the expression's resulting static type is `int`, not
`String`. -/
theorem stringConcat_compilation :
    (compileExprFrag 5 (.plus (.plus (.litStr "a".toList) (.litStr "b".toList))
        (.litStr "c".toList)) (newBuilder emptyPool)).map
      (fun pr => (pr.1.code, pr.2)) =
    some ([0xBB, 0, 2, 0x59, 0xB7, 0, 6, 0x12, 8, 0xB6, 0, 12, 0x12, 14,
      0xB6, 0, 12, 0x12, 16, 0xB6, 0, 12, 0xB6, 0, 20], STRINGT) ∧
    estimateType (.plus (.litStr "a".toList) (.litInt 1)) = INT ∧
    isStringConcat (.plus (.plus (.litStr "a".toList) (.litInt 1)) (.litInt 2))
      = false ∧
    (compileExprFrag 5 (.plus (.plus (.litStr "a".toList) (.litInt 1))
        (.litInt 2)) (newBuilder emptyPool)).map
      (fun pr => (pr.1.code, pr.2)) =
    some ([0xBB, 0, 2, 0x59, 0xB7, 0, 6, 0x12, 8, 0xB6, 0, 12, 0x04,
      0xB6, 0, 15, 0xB6, 0, 19, 0x05, 0x60], INT) := by
  refine ⟨rfl, rfl, rfl, rfl⟩

/-! ### Enum `values()` / `valueOf(String)` (C8) -/

/-- **C8.** For every constant pool and enum internal name `E`, the
generated `values()` method is `public static`, has descriptor `()[LE;`
and body `getstatic E.$VALUES : [LE;` / `invokevirtual [LE;.clone :
()Ljava/lang/Object;` / `checkcast [LE;` / `areturn` (indices as produced
by the corresponding pool adds, in that order), and the generated
`valueOf(String)` method is `public static`, has descriptor
`(Ljava/lang/String;)LE;` and body `ldc E.class` / `aload_0` /
`invokestatic java/lang/Enum.valueOf :
(Ljava/lang/Class;Ljava/lang/String;)Ljava/lang/Enum;` / `checkcast E` /
`areturn`.  The `ldc` hypothesis keeps the class index in single-byte
range (otherwise `ldc_w` is emitted). -/
theorem enum_values_valueof_methods (cp : ConstantPool) (className : List Char)
    (h : (addClass cp className).2 ≤ 255) :
    (∃ cp1 fi cp2 mi cp3 ci,
      addFieldref cp className "$VALUES".toList
          ('[' :: 'L' :: (className ++ [';'])) = (cp1, fi) ∧
      addMethodref cp1 ('[' :: 'L' :: (className ++ [';'])) "clone".toList
          "()Ljava/lang/Object;".toList = (cp2, mi) ∧
      addClass cp2 ('[' :: 'L' :: (className ++ [';'])) = (cp3, ci) ∧
      generateEnumValuesMethod cp className =
        (⟨9, "values".toList, '(' :: ')' :: '[' :: 'L' :: (className ++ [';']),
          0xB2 :: u2Bytes fi ++ 0xB6 :: u2Bytes mi ++ 0xC0 :: u2Bytes ci ++ [0xB0],
          1, 0⟩, cp3)) ∧
    (∃ cp4 si cp5 ei cp6 ki,
      addClass cp className = (cp4, si) ∧
      addMethodref cp4 "java/lang/Enum".toList "valueOf".toList
          "(Ljava/lang/Class;Ljava/lang/String;)Ljava/lang/Enum;".toList
        = (cp5, ei) ∧
      addClass cp5 className = (cp6, ki) ∧
      generateEnumValueofMethod cp className =
        (⟨9, "valueOf".toList,
          ('(' :: "Ljava/lang/String;".toList) ++ ')' :: 'L' :: (className ++ [';']),
          0x12 :: si :: 0x2A :: 0xB8 :: u2Bytes ei ++ 0xC0 :: u2Bytes ki ++ [0xB0],
          2, 1⟩, cp6)) := by
  constructor
  · refine ⟨_, _, _, _, _, _, Prod.mk.eta.symm, Prod.mk.eta.symm,
      Prod.mk.eta.symm, ?_⟩
    simp [generateEnumValuesMethod, Builder.getstatic, Builder.invokevirtual,
      Builder.checkcast, Builder.areturn, Builder.emit, Builder.pushN,
      Builder.popN, newBuilder]
  · refine ⟨_, _, _, _, _, _, Prod.mk.eta.symm, Prod.mk.eta.symm,
      Prod.mk.eta.symm, ?_⟩
    simp only [generateEnumValueofMethod, Builder.ldcClass, Builder.aload,
      Builder.invokestatic, Builder.checkcast, Builder.areturn, Builder.emit,
      Builder.pushN, Builder.popN, newBuilder, MCtx.addLocal]
    rw [if_pos h]
    simp [STRINGT, JType.size]

/-- Witness for C8 at the empty pool with enum name `Color`. -/
theorem enum_values_valueof_methods_witness :
    (addClass emptyPool "Color".toList).2 ≤ 255 ∧
    ((∃ cp1 fi cp2 mi cp3 ci,
      addFieldref emptyPool "Color".toList "$VALUES".toList
          ('[' :: 'L' :: ("Color".toList ++ [';'])) = (cp1, fi) ∧
      addMethodref cp1 ('[' :: 'L' :: ("Color".toList ++ [';'])) "clone".toList
          "()Ljava/lang/Object;".toList = (cp2, mi) ∧
      addClass cp2 ('[' :: 'L' :: ("Color".toList ++ [';'])) = (cp3, ci) ∧
      generateEnumValuesMethod emptyPool "Color".toList =
        (⟨9, "values".toList,
          '(' :: ')' :: '[' :: 'L' :: ("Color".toList ++ [';']),
          0xB2 :: u2Bytes fi ++ 0xB6 :: u2Bytes mi ++ 0xC0 :: u2Bytes ci ++ [0xB0],
          1, 0⟩, cp3)) ∧
    (∃ cp4 si cp5 ei cp6 ki,
      addClass emptyPool "Color".toList = (cp4, si) ∧
      addMethodref cp4 "java/lang/Enum".toList "valueOf".toList
          "(Ljava/lang/Class;Ljava/lang/String;)Ljava/lang/Enum;".toList
        = (cp5, ei) ∧
      addClass cp5 "Color".toList = (cp6, ki) ∧
      generateEnumValueofMethod emptyPool "Color".toList =
        (⟨9, "valueOf".toList,
          ('(' :: "Ljava/lang/String;".toList) ++ ')' :: 'L' ::
            ("Color".toList ++ [';']),
          0x12 :: si :: 0x2A :: 0xB8 :: u2Bytes ei ++ 0xC0 :: u2Bytes ki ++ [0xB0],
          2, 1⟩, cp6))) :=
  ⟨by decide, enum_values_valueof_methods emptyPool "Color".toList (by decide)⟩

/-! ### Determinism of the string switch (C9) -/

/-- **C9.** The run-dependent `id(stmt)` interpolated into the synthetic
`$switch_temp…` local-variable name does not influence the compiled
output: two compilations of the same string switch with different id
values produce the same label counter, byte-identical builder state
(code, pool, labels, forward references, stack/locals watermarks) and the
same method context up to the stored name of the temp local (same slot,
type, next-slot and break label).  This is the only run-dependent value
the generator interpolates, so re-compilation is byte-identical. -/
theorem compileStringSwitch_deterministic (counter : Nat) (ctx : MCtx) (b : Builder)
    (idA idB : Nat) (cases : List SwitchCaseFrag) (endLabel : List Char) :
    (compileStringSwitch counter ctx b idA cases endLabel).1 =
      (compileStringSwitch counter ctx b idB cases endLabel).1 ∧
    (compileStringSwitch counter ctx b idA cases endLabel).2.2 =
      (compileStringSwitch counter ctx b idB cases endLabel).2.2 ∧
    (compileStringSwitch counter ctx b idA cases endLabel).2.1.nextSlot =
      (compileStringSwitch counter ctx b idB cases endLabel).2.1.nextSlot ∧
    (compileStringSwitch counter ctx b idA cases endLabel).2.1.switchBreakLabel =
      (compileStringSwitch counter ctx b idB cases endLabel).2.1.switchBreakLabel ∧
    (compileStringSwitch counter ctx b idA cases endLabel).2.1.locals.map
        (fun e => e.2) =
      (compileStringSwitch counter ctx b idB cases endLabel).2.1.locals.map
        (fun e => e.2) := by
  refine ⟨rfl, ?_, rfl, rfl, rfl⟩
  simp only [compileStringSwitch]
  have ha : (MCtx.addLocal ctx b ("$switch_temp".toList ++ natChars idA) STRINGT).2 =
      (MCtx.addLocal ctx b ("$switch_temp".toList ++ natChars idB) STRINGT).2 := rfl
  rw [ha]
  rfl

end Pyjopa
